import Mathlib

/-!
# Verification of the goboard Go engine

This file embeds the rules engines of the repository in Lean 4 and settles the
frozen claims against them.

The repository contains two divergent engine implementations plus helpers:

* `GoGame` (src/js/game.js) — the game-session engine actually driven by the UI
  controller: grid indexed `board[y][x]`, turn alternation, simple ko, suicide
  rejection, capture, pass/undo/score.
* `GoBoard` (src/js/board.js) — a board engine with a superko history, an
  empty-cell pool, capture tallies and a move history, indexed `board[x][y]`.
* `GoRules` (src/unnamed/part_002) — a scoring engine over a `GoBoard`.
* `GoAI` (src/js/utils.js) — Monte-Carlo tree search move selection.

Modelling decisions (stated once, applying to the whole file):

* The `GoBoard` bit-board mirror fields (`bitBoardBlack`/`bitBoardWhite` and
  every operation on them) are omitted.  They are a parallel representation of
  the same information as the grid; the design notes of the project call such
  bit-packing a performance optimization and not a semantic requirement, and
  declare the grid authoritative.  (As written, the typed-array/BigInt mixing
  in these operations would in fact raise a TypeError in strict JavaScript;
  the grid logic, which is what the claims are about, is modelled here.)
* The `GoBoard` memoization caches (`groupCache`, `libertyCache`, …) are
  omitted, i.e. every query recomputes from the grid.  The specification
  states that caches are strictly advisory, must never return a stale result
  and that the grid always wins over a cache; the uncached semantics is the
  specified one.  For the same reason `updateSekiStatus` /
  `updateGroupAnalysisCache` / `manageCache` calls inside `GoBoard.placeStone`
  are omitted: in the uncached model they only write the advisory seki/cache
  fields, which no claim mentions (`updateGroupAnalysisCache` is moreover not
  defined anywhere in the source).
* JavaScript string keys of the form `"x,y"` are modelled by the coordinate
  pairs themselves, the board-state fingerprint string (single digit per
  cell) by the flattened list of cell values; both translations are injective.
* `Math.random()` driven choices in `GoAI` are modelled as oracle parameters.
* JavaScript numbers that can be half-integral (komi, scores, win tallies) are
  modelled exactly in half-points: a model value `2*v : Int` stands for the
  JS value `v`.  Standard komi values are half-integers, and then every score
  this engine produces is an integer number of half-points, so the
  representation is exact while keeping all arithmetic executable in `Int`.
* Coordinates are natural numbers; a negative JavaScript index is out of
  bounds exactly as a too-large one, and all in-bounds behaviour agrees.
-/

/-! ## The `GoGame` engine (src/js/game.js) -/

namespace GoGame

abbrev Coord := Nat × Nat

/-- A board is the `board` field of game.js: a list of rows, accessed as
`board[y][x]`.  Out-of-range access yields `0` (empty); the source always
bounds-checks before accessing. -/
abbrev Board := List (List Nat)

/-- Read `board[y][x]`. -/
def getCell (b : Board) (x y : Nat) : Nat := (b.getD y []).getD x 0

/-- Write `board[y][x] = v`. -/
def setCell (b : Board) (x y v : Nat) : Board := b.set y ((b.getD y []).set x v)

/-- game.js `getNeighbors(x, y)`: directions `[0,1],[1,0],[0,-1],[-1,0]`, each
kept when `0 <= nx < size` and `0 <= ny < size`. -/
def neighbors (size x y : Nat) : List Coord :=
  (if x < size ∧ y + 1 < size then [(x, y + 1)] else []) ++
  (if x + 1 < size ∧ y < size then [(x + 1, y)] else []) ++
  (if x < size ∧ 1 ≤ y ∧ y - 1 < size then [(x, y - 1)] else []) ++
  (if 1 ≤ x ∧ x - 1 < size ∧ y < size then [(x - 1, y)] else [])

/-- Fuel bound for the work-list loops; see `getGroupAux_runs_out` below:
every loop iteration strictly decreases `stack.length + 5 * (#unvisited
in-range cells)`, which is at most `5*size*size + 1` at the start. -/
def fuel (size : Nat) : Nat := 5 * size * size + 1

/-- The work-list loop of game.js `getGroup`: pop from the stack top, skip if
visited, mark visited, and when the colour matches record the cell and push
its not-yet-visited neighbours (the JS array push/pop pair makes the stack a
LIFO whose top is the head of our list, so a burst of pushes appears
reversed).  Returns the final `(group, visited, stack)`; the JS loop runs
until the stack is empty, the fuel is an upper bound proved sufficient. -/
def getGroupAux (b : Board) (size color : Nat) :
    Nat → List Coord → List Coord → List Coord → List Coord × List Coord × List Coord
  | 0, stack, visited, group => (group, visited, stack)
  | _ + 1, [], visited, group => (group, visited, [])
  | n + 1, c :: rest, visited, group =>
    if c ∈ visited then getGroupAux b size color n rest visited group
    else
      let visited' := c :: visited
      if getCell b c.1 c.2 = color then
        let ns := (neighbors size c.1 c.2).filter (fun m => !(m ∈ visited'))
        getGroupAux b size color n (ns.reverse ++ rest) visited' (group ++ [c])
      else getGroupAux b size color n rest visited' group

/-- game.js `getGroup(x, y)`: the 4-connected same-colour component computed
by the stack-based flood fill; empty start cell gives the empty group. -/
def getGroup (b : Board) (size x y : Nat) : List Coord :=
  let color := getCell b x y
  if color = 0 then []
  else (getGroupAux b size color (fuel size) [(x, y)] [] []).1

/-- Appending to a JS `Set`, preserving first-insertion order. -/
def addUnique (l : List Coord) (c : Coord) : List Coord :=
  if c ∈ l then l else l ++ [c]

/-- game.js `getGroupLiberties(x, y)`: the set of empty neighbours of the
group of `(x, y)`. -/
def getGroupLiberties (b : Board) (size x y : Nat) : List Coord :=
  (getGroup b size x y).foldl
    (fun acc g =>
      (neighbors size g.1 g.2).foldl
        (fun acc2 m => if getCell b m.1 m.2 = 0 then addUnique acc2 m else acc2)
        acc)
    []

/-- game.js `isSuicideMove(x, y, player)`: temporarily place the stone, check
whether the resulting own group has a liberty and whether some neighbouring
enemy group is left without liberties; the temporary stone is removed again,
so the function is modelled as pure. -/
def isSuicideMove (size : Nat) (b : Board) (x y player : Nat) : Bool :=
  let b' := setCell b x y player
  let hasLiberties : Bool := decide (0 < (getGroupLiberties b' size x y).length)
  let wouldCapture : Bool := (neighbors size x y).any fun m =>
    if getCell b' m.1 m.2 = 3 - player then
      decide ((getGroupLiberties b' size m.1 m.2).length = 0)
    else false
  !hasLiberties && !wouldCapture

/-- One history entry of game.js `saveState`. -/
structure HistEntry where
  board : Board
  currentPlayer : Nat
  captures1 : Nat
  captures2 : Nat
  koPoint : Option Coord
  consecutivePasses : Nat
  deriving Repr, DecidableEq

/-- game.js ruleset strings. -/
inductive RuleSet
  | chinese
  | japanese
  | aga
  deriving Repr, DecidableEq

/-- The state of a `GoGame` instance.  The fields `territory` and
`deadStones`, which only participate in the (unclaimed) scoring path of
game.js, are omitted. -/
structure GameState where
  size : Nat
  komi2 : Int
  handicap : Nat
  ruleSet : RuleSet
  board : Board
  currentPlayer : Nat
  captures1 : Nat
  captures2 : Nat
  history : List HistEntry
  koPoint : Option Coord
  consecutivePasses : Nat
  gameOver : Bool
  deriving Repr, DecidableEq

/-- game.js `getHandicapPositions(count)`. -/
def getHandicapPositions (size count : Nat) : List Coord :=
  let d := if size = 19 then 3 else if size = 13 then 3 else 2
  let mid := size / 2
  let corners := [(d, d), (size - 1 - d, d), (d, size - 1 - d), (size - 1 - d, size - 1 - d)]
  let side := if 13 ≤ size then [(mid, d), (mid, size - 1 - d), (d, mid), (size - 1 - d, mid)] else []
  let center := if 13 ≤ size then [(mid, mid)] else []
  (corners ++ side ++ center).take count

/-- game.js `placeHandicapStones`: write a black stone at `board[y][x]` for
each returned position. -/
def placeHandicapStones (b : Board) (positions : List Coord) : Board :=
  positions.foldl (fun bb c => setCell bb c.1 c.2 1) b

/-- The game.js `GoGame` constructor (`komi2` is twice the komi, see the
half-point convention in the header). -/
def mkGame (size : Nat) (komi2 : Int) (handicap : Nat) (ruleSet : RuleSet) : GameState :=
  let b0 : Board := List.replicate size (List.replicate size 0)
  { size := size
    komi2 := komi2
    handicap := handicap
    ruleSet := ruleSet
    board := if 0 < handicap then placeHandicapStones b0 (getHandicapPositions size handicap) else b0
    currentPlayer := if 0 < handicap then 2 else 1
    captures1 := 0
    captures2 := 0
    history := []
    koPoint := none
    consecutivePasses := 0
    gameOver := false }

/-- game.js `isValidMove(x, y)`: bounds, emptiness, the ko point, and the
suicide rule.  (There is no superko check anywhere in `GoGame`.) -/
def isValidMove (s : GameState) (x y : Nat) : Bool :=
  if x < s.size ∧ y < s.size then
    if getCell s.board x y ≠ 0 then false
    else if (match s.koPoint with
             | some k => decide (k.1 = x ∧ k.2 = y)
             | none => false) then false
    else !isSuicideMove s.size s.board x y s.currentPlayer
  else false

/-- One neighbour step of game.js `captureStones`: if the neighbour holds an
opponent stone whose group has no liberties on the current (already partially
captured) board, remove that whole group and record its stones. -/
def captureStep (size opp : Nat) (acc : Board × List Coord) (m : Coord) :
    Board × List Coord :=
  if getCell acc.1 m.1 m.2 = opp then
    if (getGroupLiberties acc.1 size m.1 m.2).length = 0 then
      let g := getGroup acc.1 size m.1 m.2
      (g.foldl (fun bb c => setCell bb c.1 c.2 0) acc.1, acc.2 ++ g)
    else acc
  else acc

/-- game.js `captureStones(x, y)` run on the board that already holds the new
stone; returns the updated board and the list of captured stones. -/
def captureStones (size : Nat) (b : Board) (x y player : Nat) :
    Board × List Coord :=
  (neighbors size x y).foldl (captureStep size (3 - player)) (b, [])

/-- game.js `saveState()`. -/
def saveState (s : GameState) : GameState :=
  { s with history :=
      { board := s.board
        currentPlayer := s.currentPlayer
        captures1 := s.captures1
        captures2 := s.captures2
        koPoint := s.koPoint
        consecutivePasses := s.consecutivePasses } :: s.history }

/-- game.js `placeStone(x, y)`.  Returns the JS boolean result together with
the state after the call.  On success: history push, stone placement, pass
counter reset, ko point cleared, captures, the simple-ko point (set when
exactly one stone was captured and the capturing group is a single stone),
and the player switch.  Note the absence of any `gameOver` check. -/
def placeStone (s : GameState) (x y : Nat) : Bool × GameState :=
  if isValidMove s x y then
    let s1 := saveState s
    let b1 := setCell s1.board x y s1.currentPlayer
    let bc := captureStones s1.size b1 x y s1.currentPlayer
    let ko : Option Coord :=
      match bc.2 with
      | [c] => if (getGroup bc.1 s1.size x y).length = 1 then some c else none
      | _ => none
    (true,
      { s1 with
        board := bc.1
        consecutivePasses := 0
        koPoint := ko
        captures1 := s1.captures1 + (if s1.currentPlayer = 1 then bc.2.length else 0)
        captures2 := s1.captures2 + (if s1.currentPlayer = 2 then bc.2.length else 0)
        currentPlayer := 3 - s1.currentPlayer })
  else (false, s)

/-- game.js `pass()`: save state, count the pass, switch players; two
consecutive passes end the game (the returned boolean). -/
def pass (s : GameState) : Bool × GameState :=
  let s1 := saveState s
  let s2 := { s1 with
    consecutivePasses := s1.consecutivePasses + 1
    currentPlayer := 3 - s1.currentPlayer }
  if 2 ≤ s2.consecutivePasses then (true, { s2 with gameOver := true })
  else (false, s2)

/-- game.js `undo()`: pop the last saved state and restore every saved field. -/
def undo (s : GameState) : Bool × GameState :=
  match s.history with
  | [] => (false, s)
  | e :: rest =>
    (true,
      { s with
        board := e.board
        currentPlayer := e.currentPlayer
        captures1 := e.captures1
        captures2 := e.captures2
        koPoint := e.koPoint
        consecutivePasses := e.consecutivePasses
        history := rest })

/-- game.js `countStones(color)`. -/
def countStones (b : Board) (size color : Nat) : Nat :=
  (List.range size).foldl
    (fun acc y => (List.range size).foldl
      (fun acc2 x => if getCell b x y = color then acc2 + 1 else acc2) acc)
    0

/-- Play a list of moves through `placeStone`, requiring every move to be
accepted (`none` as soon as one is rejected). -/
def playAll (s : GameState) : List Coord → Option GameState
  | [] => some s
  | m :: ms =>
    let r := placeStone s m.1 m.2
    if r.1 then playAll r.2 ms else none

end GoGame

/-! ## The `GoBoard` engine (src/js/board.js)

Uncached model per the file-header notes: the grid is authoritative, the
memoization caches, bit-board mirrors and the advisory seki bookkeeping are
omitted. -/

namespace GoBoard

abbrev Coord := Nat × Nat

/-- board.js accesses its grid as `board[x][y]` (first index is `x`). -/
abbrev Grid := List (List Nat)

/-- Read `board[x][y]`. -/
def getCell (b : Grid) (x y : Nat) : Nat := (b.getD x []).getD y 0

/-- Write `board[x][y] = v`. -/
def setCell (b : Grid) (x y v : Nat) : Grid := b.set x ((b.getD x []).set y v)

/-- board.js `getNeighbors(x, y)`: candidates `[x-1,y],[x+1,y],[x,y-1],[x,y+1]`
filtered to the board. -/
def neighbors (size x y : Nat) : List Coord :=
  (if 1 ≤ x ∧ x - 1 < size ∧ y < size then [(x - 1, y)] else []) ++
  (if x + 1 < size ∧ y < size then [(x + 1, y)] else []) ++
  (if x < size ∧ 1 ≤ y ∧ y - 1 < size then [(x, y - 1)] else []) ++
  (if x < size ∧ y + 1 < size then [(x, y + 1)] else [])

/-- Work list of board.js `getGroup`: here the colour and visited checks
happen when a neighbour is pushed (the start cell is seeded into group,
visited and stack). -/
def getGroupAux (b : Grid) (size color : Nat) :
    Nat → List Coord → List Coord → List Coord → List Coord × List Coord × List Coord
  | 0, stack, visited, group => (group, visited, stack)
  | _ + 1, [], visited, group => (group, visited, [])
  | n + 1, c :: rest, visited, group =>
    let step := (neighbors size c.1 c.2).foldl
      (fun (acc : List Coord × List Coord × List Coord) m =>
        if getCell b m.1 m.2 = color ∧ ¬ (m ∈ acc.2.1) then
          (acc.1 ++ [m], m :: acc.2.1, acc.2.2 ++ [m])
        else acc)
      (group, visited, ([] : List Coord))
    getGroupAux b size color n (step.2.2.reverse ++ rest) step.2.1 step.1

/-- board.js fuel bound, same shape as for game.js. -/
def fuel (size : Nat) : Nat := 5 * size * size + 1

/-- board.js `getGroup(x, y)`. -/
def getGroup (b : Grid) (size x y : Nat) : List Coord :=
  let color := getCell b x y
  (getGroupAux b size color (fuel size) [(x, y)] [(x, y)] [(x, y)]).1

/-- JS `Set` insertion preserving first-insertion order. -/
def addUnique (l : List Coord) (c : Coord) : List Coord :=
  if c ∈ l then l else l ++ [c]

/-- board.js `getLiberties(x, y)`: empty neighbours of the group of `(x,y)`. -/
def getLiberties (b : Grid) (size x y : Nat) : List Coord :=
  (getGroup b size x y).foldl
    (fun acc g =>
      (neighbors size g.1 g.2).foldl
        (fun acc2 m => if getCell b m.1 m.2 = 0 then addUnique acc2 m else acc2)
        acc)
    []

/-- board.js `getGroupLiberties(group)`. -/
def getGroupLiberties (b : Grid) (size : Nat) (group : List Coord) : List Coord :=
  group.foldl
    (fun acc g =>
      (neighbors size g.1 g.2).foldl
        (fun acc2 m => if getCell b m.1 m.2 = 0 then addUnique acc2 m else acc2)
        acc)
    []

/-- board.js `checkCaptures(x, y, player)`: collect (without removing) every
neighbouring opponent group that has no liberties.  Two neighbours in one
such group contribute the group twice, exactly as the source's
`captured.push(...group)` does. -/
def checkCaptures (b : Grid) (size x y player : Nat) : List Coord :=
  (neighbors size x y).foldl
    (fun acc m =>
      if getCell b m.1 m.2 = (if player = 1 then 2 else 1) then
        if (getLiberties b size m.1 m.2).length = 0 then
          acc ++ getGroup b size m.1 m.2
        else acc
      else acc)
    []

/-- A move-history entry of board.js `placeStone`: the move, its captures and
the pre-move fingerprint. -/
structure MoveEntry where
  x : Nat
  y : Nat
  player : Nat
  captured : List Coord
  state : List Nat
  deriving Repr, DecidableEq

/-- The state of a `GoBoard` (authoritative fields only, see header). -/
structure BoardState where
  size : Nat
  board : Grid
  koPoint : Option Coord
  superKoHistory : List (List Nat × Nat)
  emptyCells : List Coord
  captured1 : Nat
  captured2 : Nat
  moveHistory : List MoveEntry
  deriving Repr, DecidableEq

/-- board.js constructor (sizes 9, 13, 19 are the ones the source accepts). -/
def mkBoard (size : Nat) : BoardState :=
  { size := size
    board := List.replicate size (List.replicate size 0)
    koPoint := none
    superKoHistory := []
    emptyCells := (List.range (size * size)).map (fun i => (i / size, i % size))
    captured1 := 0
    captured2 := 0
    moveHistory := [] }

/-- board.js `getBoardStateString()`: the flattened grid (`board.flat()`
joined; injective for single-digit cells, so the flat list is a faithful
model of the fingerprint string). -/
def getBoardStateString (b : Grid) : List Nat := b.flatten

/-- board.js `isValidMove(x, y, player)`: bounds and emptiness only. -/
def isValidMove (s : BoardState) (x y _player : Nat) : Bool :=
  decide (x < s.size ∧ y < s.size) && decide (getCell s.board x y = 0)

/-- board.js `checkKo(x, y)`. -/
def checkKo (s : BoardState) (x y : Nat) : Bool :=
  match s.koPoint with
  | some k => decide (k.1 = x ∧ k.2 = y)
  | none => false

/-- JS `Map.has` / count lookup. -/
def historyLookup (h : List (List Nat × Nat)) (st : List Nat) : Option Nat :=
  match h.find? (fun e => e.1 = st) with
  | some e => some e.2
  | none => none

/-- board.js `checkSuperKo(state)`. -/
def checkSuperKo (s : BoardState) (st : List Nat) : Bool :=
  match historyLookup s.superKoHistory st with
  | some c => decide (1 ≤ c)
  | none => false

/-- JS `Map.set`: update in place when present (keeping insertion order),
append otherwise. -/
def historySet (h : List (List Nat × Nat)) (st : List Nat) (v : Nat) :
    List (List Nat × Nat) :=
  if (h.find? (fun e => e.1 = st)).isSome then
    h.map (fun e => if e.1 = st then (e.1, v) else e)
  else h ++ [(st, v)]

/-- board.js `revertMove(x, y, player)`: clear the cell and append it back to
the empty-cell pool (nothing else — in particular no capture undo). -/
def revertMove (s : BoardState) (x y : Nat) : BoardState :=
  { s with board := setCell s.board x y 0, emptyCells := s.emptyCells ++ [(x, y)] }

/-- The tentative placement at the start of board.js `placeStone`: write the
stone and drop the cell from the empty pool (lines 55-59 of board.js). -/
def placeTentative (s : BoardState) (x y player : Nat) : BoardState :=
  { s with
    board := setCell s.board x y player
    emptyCells := s.emptyCells.filter (fun e => ¬(e.1 = x ∧ e.2 = y)) }

/-- The capture block of board.js `placeStone` (the `captured.forEach` of
lines 62-69): clear each captured cell, return it to the empty pool, and
credit the capturing player once per list entry. -/
def withCaptures (s1 : BoardState) (player : Nat) (captured : List Coord) :
    BoardState :=
  { s1 with
    board := captured.foldl (fun bb c => setCell bb c.1 c.2 0) s1.board
    emptyCells := s1.emptyCells ++ captured
    captured1 := s1.captured1 + (if player = 1 then captured.length else 0)
    captured2 := s1.captured2 + (if player = 2 then captured.length else 0) }

/-- The accepting tail of board.js `placeStone` (lines 87-93): record the
post-move fingerprint in the superko history, set or clear the ko point
(set to the *placed* point when exactly one stone was captured), and push
the history entry. -/
def commitMove (s2 : BoardState) (x y player : Nat) (captured : List Coord)
    (boardState newBoardState : List Nat) : BoardState :=
  { s2 with
    superKoHistory :=
      historySet s2.superKoHistory newBoardState
        ((historyLookup s2.superKoHistory newBoardState).getD 0 + 1)
    koPoint := if captured.length = 1 then some (x, y) else none
    moveHistory :=
      { x := x, y := y, player := player, captured := captured,
        state := boardState } :: s2.moveHistory }

/-- board.js `placeStone(x, y, player)`.  Returns the JS boolean together
with the state after the call; the rejection paths reproduce the source's
partial roll-back (`revertMove` does not restore captured stones). -/
def placeStone (s : BoardState) (x y player : Nat) : Bool × BoardState :=
  if !(isValidMove s x y player) then (false, s)
  else
    let boardState := getBoardStateString s.board
    let s1 := placeTentative s x y player
    let captured := checkCaptures s1.board s1.size x y player
    let s2 := withCaptures s1 player captured
    let liberties := getLiberties s2.board s2.size x y
    if captured.length = 0 ∧ liberties.length = 0 then (false, revertMove s2 x y)
    else if captured.length = 1 ∧ checkKo s2 x y then (false, revertMove s2 x y)
    else
      let newBoardState := getBoardStateString s2.board
      if checkSuperKo s2 newBoardState then (false, revertMove s2 x y)
      else (true, commitMove s2 x y player captured boardState newBoardState)

/-- board.js `undoMove()`: pop the last entry, revert the placed stone,
restore captured stones and the capture tally.  The ko point and the superko
history are left untouched, exactly as in the source. -/
def undoMove (s : BoardState) : BoardState :=
  match s.moveHistory with
  | [] => s
  | e :: rest =>
    let s1 := revertMove { s with moveHistory := rest } e.x e.y
    e.captured.foldl
      (fun st c =>
        { st with
          board := setCell st.board c.1 c.2 (if e.player = 1 then 2 else 1)
          emptyCells := st.emptyCells.filter (fun q => ¬(q.1 = c.1 ∧ q.2 = c.2))
          captured1 := st.captured1 - (if e.player = 1 then 1 else 0)
          captured2 := st.captured2 - (if e.player = 2 then 1 else 0) })
      s1

/-- board.js `floodFill(x, y)`: the connected region of empty cells (the
popped start cell is recorded unconditionally, as in the source). -/
def floodFillAux (b : Grid) (size : Nat) :
    Nat → List Coord → List Coord → List Coord → List Coord × List Coord × List Coord
  | 0, stack, visited, region => (region, visited, stack)
  | _ + 1, [], visited, region => (region, visited, [])
  | n + 1, c :: rest, visited, region =>
    let step := (neighbors size c.1 c.2).foldl
      (fun (acc : List Coord × List Coord) m =>
        if getCell b m.1 m.2 = 0 ∧ ¬(m ∈ acc.1) then (m :: acc.1, acc.2 ++ [m])
        else acc)
      (visited, ([] : List Coord))
    floodFillAux b size n (step.2.reverse ++ rest) step.1 (region ++ [c])

/-- board.js `floodFill(x, y)`. -/
def floodFill (b : Grid) (size x y : Nat) : List Coord :=
  (floodFillAux b size (fuel size) [(x, y)] [(x, y)] []).1

/-- board.js `isSeki(x, y)` (the advisory `sekiGroups`/cache writes are
dropped; the returned boolean is unchanged). -/
def isSeki (b : Grid) (size x y : Nat) : Bool :=
  let liberties := getLiberties b size x y
  if liberties.length = 2 then
    liberties.any fun l =>
      (neighbors size l.1 l.2).any fun m =>
        if getCell b m.1 m.2 ≠ 0 ∧ getCell b m.1 m.2 ≠ getCell b x y then
          decide ((getGroupLiberties b size (getGroup b size m.1 m.2)).length = 2)
        else false
  else false

/-- Play a list of `(x, y, player)` moves through `placeStone`, keeping the
state that every call (successful or not) leaves behind. -/
def runMoves (s : BoardState) : List (Nat × Nat × Nat) → BoardState
  | [] => s
  | m :: ms => runMoves (placeStone s m.1 m.2.1 m.2.2).2 ms

/-- The fingerprints recorded after each successful move of a move list. -/
def successFps (s : BoardState) : List (Nat × Nat × Nat) → List (List Nat)
  | [] => []
  | m :: ms =>
    let r := placeStone s m.1 m.2.1 m.2.2
    if r.1 then getBoardStateString r.2.board :: successFps r.2 ms
    else successFps r.2 ms

end GoBoard

/-! ## The `GoRules` scoring engine (src/unnamed/part_002)

`GoRules` wraps a `GoBoard`; a freshly constructed instance has an empty
`sekiRegions` set, modelled by the explicit `sekiRegions` argument.  The
score cache only memoizes the pure result and is omitted. -/

namespace GoRules

open GoBoard

/-- The `{black, white, winner}` record returned by the scoring functions;
`black2`/`white2` are twice the JS scores (half-point convention). -/
structure ScoreResult where
  black2 : Int
  white2 : Int
  winner : Nat
  deriving Repr, DecidableEq

/-- part_002 `isSekiRegion(x, y)`: a membership test in the instance's
`sekiRegions` set, then for a stone the board's `isSeki`, and for an empty
cell whether its region touches seki stones of at least two colours. -/
def isSekiRegion (sekiRegions : List GoBoard.Coord) (s : BoardState) (x y : Nat) : Bool :=
  if (x, y) ∈ sekiRegions then true
  else if getCell s.board x y ≠ 0 then isSeki s.board s.size x y
  else
    let region := floodFill s.board s.size x y
    let surrounds := region.foldl
      (fun acc r =>
        (neighbors s.size r.1 r.2).foldl
          (fun acc2 m =>
            if getCell s.board m.1 m.2 ≠ 0 ∧ isSeki s.board s.size m.1 m.2 then
              (if getCell s.board m.1 m.2 ∈ acc2 then acc2
               else acc2 ++ [getCell s.board m.1 m.2])
            else acc2)
          acc)
      ([] : List Nat)
    decide (2 ≤ surrounds.length)

/-- The colours of the stones bordering a region (a JS `Set` of colours). -/
def surroundColors (s : BoardState) (region : List GoBoard.Coord) : List Nat :=
  region.foldl
    (fun acc r =>
      (neighbors s.size r.1 r.2).foldl
        (fun acc2 m =>
          if getCell s.board m.1 m.2 ≠ 0 then
            (if getCell s.board m.1 m.2 ∈ acc2 then acc2
             else acc2 ++ [getCell s.board m.1 m.2])
          else acc2)
        acc)
    ([] : List Nat)

/-- part_002 `calculateScoreJapanese()`: black starts from
`board.captured[2]`, white from `board.captured[1] + komi`; every empty
non-seki region wholly bordered by one colour is credited to that colour.
The winner is `1` when black's score is strictly larger, else `2`.
All values in half-points (see the header). -/
def calculateScoreJapanese (sekiRegions : List GoBoard.Coord) (s : BoardState)
    (komi2 : Int) : ScoreResult :=
  let init : List GoBoard.Coord × Int × Int :=
    ([], 2 * (s.captured2 : Int), 2 * (s.captured1 : Int) + komi2)
  let r := (List.range s.size).foldl
    (fun acc x => (List.range s.size).foldl
      (fun (acc2 : List GoBoard.Coord × Int × Int) y =>
        let visited := acc2.1
        if getCell s.board x y = 0 ∧ ¬((x, y) ∈ visited) ∧
            ¬(isSekiRegion sekiRegions s x y = true) then
          let region := floodFill s.board s.size x y
          let surrounds := surroundColors s region
          let sc1 := if surrounds = [1] then acc2.2.1 + 2 * (region.length : Int) else acc2.2.1
          let sc2 := if surrounds = [2] then acc2.2.2 + 2 * (region.length : Int) else acc2.2.2
          (visited ++ region, sc1, sc2)
        else acc2)
      acc)
    init
  { black2 := r.2.1, white2 := r.2.2, winner := if r.2.1 > r.2.2 then 1 else 2 }

end GoRules

/-! ## The `GoAI` move selection (src/js/utils.js)

Only the final move-selection logic of `GoAI.getBestMove` is claimed.  The
stochastic tree construction (`mcts`) is abstracted by its observable output:
the list of root children, each with its move, visit count and win
accumulator.  `Math.random() < 0.3` and the random fallback move are oracle
parameters, and the write to the transposition table (which does not affect
the returned move) is dropped. -/

namespace GoAI

/-- A search-tree node as far as move selection observes it. -/
structure Node where
  move : Option (Nat × Nat)
  visits : Nat
  wins2 : Int
  deriving Repr, DecidableEq

/-- The selection `root.children.reduce((best, child) => child.visits >
best.visits ? child : best, root.children[0])`: a fold over all children
seeded with the first one (`none` when there are no children, as the JS
`undefined`). -/
def bestChild (children : List Node) : Option Node :=
  match children with
  | [] => none
  | h :: _ =>
    some (children.foldl (fun best c => if best.visits < c.visits then c else best) h)

/-- utils.js `getBestMove()`: a transposition-table hit returns the cached
node's move; otherwise with probability 0.3 (`nnShortcut`) the neural-network
move is returned without running the tree search; otherwise the search runs
and the child with the highest visit count is selected (`randMove` is the
`getRandomMove()` fallback of the empty-children case). -/
def getBestMove (tt : Option Node) (nnShortcut : Bool) (nnMove : Option (Nat × Nat))
    (children : List Node) (randMove : Option (Nat × Nat)) : Option (Nat × Nat) :=
  match tt with
  | some cached => cached.move
  | none =>
    if nnShortcut then nnMove
    else
      match bestChild children with
      | some bc => bc.move
      | none => randMove

end GoAI


namespace GoGame

/-! ### Specification-side notions: connectivity, groups and liberties

The claims speak of maximal 4-connected groups of same-coloured stones and
their liberties.  These are defined here directly from the grid, via
reflexive-transitive closure of same-colour adjacency; the bridge lemmas
below prove that the source's flood-fill computes exactly these sets. -/

/-- A coordinate lies on the board. -/
def inRange (size : Nat) (c : Coord) : Prop := c.1 < size ∧ c.2 < size

/-- One step of same-colour 4-adjacency. -/
def adjStep (b : Board) (size : Nat) (u v : Coord) : Prop :=
  v ∈ neighbors size u.1 u.2 ∧ getCell b v.1 v.2 = getCell b u.1 u.2

/-- `v` belongs to the maximal same-colour component of `u`. -/
def Reach (b : Board) (size : Nat) (u v : Coord) : Prop :=
  Relation.ReflTransGen (adjStep b size) u v

/-- `z` is a liberty of the group of `start`: an empty cell adjacent to some
stone of the component of `start`. -/
def IsLiberty (b : Board) (size : Nat) (start z : Coord) : Prop :=
  ∃ c, Reach b size start c ∧ z ∈ neighbors size c.1 c.2 ∧ getCell b z.1 z.2 = 0

/-- All coordinates of a `size × size` board, used only to measure flood-fill
progress. -/
def allCells (size : Nat) : List Coord :=
  (List.range (size * size)).map (fun i => (i / size, i % size))

/-- Count of board cells not yet visited: the flood-fill progress measure. -/
def unseen (size : Nat) (visited : List Coord) : Nat :=
  ((allCells size).filter (fun c => decide (c ∉ visited))).length

/-- Justification for a stack entry of the flood fill: it is the start cell or
a neighbour of a cell already known to lie in the component of the start. -/
def Cand (b : Board) (size : Nat) (start c : Coord) : Prop :=
  c = start ∨ ∃ g, Reach b size start g ∧ c ∈ neighbors size g.1 g.2

/-- The loop invariant of the game.js flood fill: every stack entry is
justified and on the board, the recorded group lies in the component of the
start, every visited cell of the right colour has been recorded, neighbours
of recorded cells are visited or pending, and the start itself is recorded,
pending or visited. -/
def AuxInv (b : Board) (size color : Nat) (start : Coord)
    (stack visited group : List Coord) : Prop :=
  (∀ c ∈ stack, Cand b size start c ∧ inRange size c) ∧
  (∀ c ∈ group, Reach b size start c) ∧
  (∀ v ∈ visited, getCell b v.1 v.2 = color → v ∈ group) ∧
  (∀ g ∈ group, ∀ n ∈ neighbors size g.1 g.2, n ∈ visited ∨ n ∈ stack) ∧
  (start ∈ group ∨ start ∈ stack ∨ start ∈ visited)

/-- Well-formedness of a board: `size` rows of length `size`. -/
def WFBoard (b : Board) (size : Nat) : Prop :=
  b.length = size ∧ ∀ j, j < size → (b.getD j []).length = size

/-- Invariant of the game.js `captureStones` fold, relative to the board `b1`
that already holds the newly placed stone of `player` `p` at `(x, y)`:
the board stays well-formed, the placed stone survives, surviving stones
keep their `b1` value and their `b1` component, recorded captures are empty
cells, and a nonempty capture list contains some neighbour of `(x, y)`. -/
def CapInv (size p : Nat) (b1 : Board) (x y : Nat)
    (st : Board × List Coord) : Prop :=
  WFBoard st.1 size ∧
  getCell st.1 x y = p ∧
  (∀ c : Coord, getCell st.1 c.1 c.2 ≠ 0 →
    getCell st.1 c.1 c.2 = getCell b1 c.1 c.2) ∧
  (∀ c : Coord, inRange size c → getCell st.1 c.1 c.2 ≠ 0 →
    ∀ z, Reach st.1 size c z ↔ Reach b1 size c z) ∧
  (∀ z ∈ st.2, getCell st.1 z.1 z.2 = 0) ∧
  (st.2 ≠ [] → ∃ m ∈ neighbors size x y, m ∈ st.2)

/-- The spec's wording of the suicide predicate: on the board holding the
tentative stone, the new stone's group has no liberty and no adjacent enemy
group is left without liberties (nothing would be captured). -/
def SpecSuicide (size : Nat) (b : Board) (x y player : Nat) : Prop :=
  (¬ ∃ z, IsLiberty (setCell b x y player) size (x, y) z) ∧
  ¬ ∃ m ∈ neighbors size x y,
      getCell (setCell b x y player) m.1 m.2 = 3 - player ∧
      ¬ ∃ z, IsLiberty (setCell b x y player) size m z

/-- Every cell holds 0 (empty), 1 (black) or 2 (white). -/
def CellsOK (b : Board) : Prop :=
  ∀ c : Coord, getCell b c.1 c.2 = 0 ∨ getCell b c.1 c.2 = 1 ∨ getCell b c.1 c.2 = 2

/-- The spec's liberty invariant: every maximal group (represented by any of
its stones) has at least one liberty. -/
def NoDeadGroups (b : Board) (size : Nat) : Prop :=
  ∀ c : Coord, inRange size c → getCell b c.1 c.2 ≠ 0 →
    ∃ z, IsLiberty b size c z

/-- States on which the liberty invariant argument runs: well-formed board,
cells in `{0,1,2}`, a proper player to move, and no liberty-free group. -/
def GoodState (s : GameState) : Prop :=
  WFBoard s.board s.size ∧ CellsOK s.board ∧
  (s.currentPlayer = 1 ∨ s.currentPlayer = 2) ∧
  NoDeadGroups s.board s.size

end GoGame

namespace GoBoard

/-- Every recorded superko count is at least one. -/
def CountsOK (s : BoardState) : Prop := ∀ e ∈ s.superKoHistory, 1 ≤ e.2

end GoBoard

/-! ## Concrete scenarios used by the claim theorems -/

/-- A 9×9 `GoGame` with komi 6.5 (13 half-points) and no handicap, as the UI
constructs it. -/
def gInit : GoGame.GameState := GoGame.mkGame 9 13 0 GoGame.RuleSet.chinese

/-- A fresh 9×9 `GoBoard`. -/
def bInit : GoBoard.BoardState := GoBoard.mkBoard 9

/-- `GoBoard` moves `(x, y, player)` building a simple-ko position: black
walls `(0,1),(1,0),(2,1)`, white walls `(0,2),(1,3),(2,2)`, the white ko
stone `(1,1)`, and finally black's ko capture at `(1,2)` which removes
exactly the white stone at `(1,1)`. -/
def koSeq : List (Nat × Nat × Nat) :=
  [(0,1,1),(1,0,1),(2,1,1),(0,2,2),(1,3,2),(2,2,2),(1,1,2),(1,2,1)]

/-- The `GoBoard` state after the first seven moves of `koSeq`. -/
def koS7 : GoBoard.BoardState := GoBoard.runMoves bInit (koSeq.take 7)

/-- The `GoBoard` state after all of `koSeq` (black has captured one stone). -/
def koS8 : GoBoard.BoardState := GoBoard.runMoves bInit koSeq

/-- The corresponding `GoGame` ko position: the same shape built with
alternating moves (black also plays a tempo stone at `(8,8)`), ending with
white's ko stone at `(1,1)`.  Black to move can capture it at `(2,1)`. -/
def koSetupG : List GoGame.Coord :=
  [(1,0),(2,0),(0,1),(3,1),(1,2),(2,2),(8,8),(1,1)]

/-- Setup of three independent simple kos on one 9×9 `GoGame` (22 alternating
moves; black additionally plays `(8,8)` to keep the alternation).  After it,
ko 1 and ko 3 hold a white stone, ko 2 holds a black stone. -/
def tkSetup : List GoGame.Coord :=
  [(1,0),(2,0),(0,1),(3,1),(1,2),(2,2),(5,0),(6,0),(4,1),(7,1),(5,2),(6,2),
   (1,4),(2,4),(0,5),(3,5),(1,6),(2,6),(6,1),(1,1),(8,8),(1,5)]

/-- The triple-ko cycle: black takes ko 1, white takes ko 2, black takes
ko 3, white retakes ko 1, black retakes ko 2, white retakes ko 3.  Each
recapture is legal under the simple-ko rule because the ko point always sits
on the other ko; after the six moves the grid is exactly the one after
`tkSetup`. -/
def tkCycle : List GoGame.Coord := [(2,1),(5,1),(2,5),(1,1),(6,1),(1,5)]

/-- The grid reached after `tkSetup` (and, by `claim4_counterexample`, again
after the full triple-ko cycle). -/
def tkBoardAfterSetup : GoGame.Board :=
  [[0, 1, 2, 0, 0, 1, 2, 0, 0], [1, 2, 0, 2, 1, 0, 1, 2, 0], [0, 1, 2, 0, 0, 1, 2, 0, 0],
   [0, 0, 0, 0, 0, 0, 0, 0, 0], [0, 1, 2, 0, 0, 0, 0, 0, 0], [1, 2, 0, 2, 0, 0, 0, 0, 0],
   [0, 1, 2, 0, 0, 0, 0, 0, 0], [0, 0, 0, 0, 0, 0, 0, 0, 0], [0, 0, 0, 0, 0, 0, 0, 0, 1]]

/-- The `GoGame` position after the eight `koSetupG` moves (black to move,
about to take the ko at `(2, 1)`). -/
def koG8 : GoGame.GameState := (GoGame.playAll gInit koSetupG).getD gInit

/-- A concrete two-child root list for the `claim9_theorem` witness. -/
def aiChildrenW : List GoAI.Node :=
  [{ move := some (4,4), visits := 7, wins2 := 0 },
   { move := some (2,2), visits := 3, wins2 := 8 }]

set_option maxHeartbeats 8000000
set_option maxRecDepth 20000
/-! ## Claim theorems: concrete counterexamples and code-bug evaluations -/

/-- Claim C1, counterexample.  The claim states that `isValidMove(x, y, p)`
returns false when the move would be a suicide, and that `placeStone`
succeeds iff `isValidMove` returns true.  On a `GoBoard` with white stones
at `(0,1)` and `(1,0)`, black playing the corner `(0,0)` is a suicide that
captures nothing: `GoBoard.isValidMove` nevertheless returns `true` (it only
checks bounds and occupancy), while `GoBoard.placeStone` rejects the move —
so the two disagree and the suicide clause of the claim fails. -/
theorem claim1_counterexample :
    (GoBoard.runMoves bInit [(0,1,2),(1,0,2)]).moveHistory.length = 2 ∧
    GoBoard.isValidMove (GoBoard.runMoves bInit [(0,1,2),(1,0,2)]) 0 0 1 = true ∧
    (GoBoard.placeStone (GoBoard.runMoves bInit [(0,1,2),(1,0,2)]) 0 0 1).1 = false := by
  refine ⟨by decide, by decide, by decide⟩

/-- Claim C2 (code bug).  The claim states that a `placeStone` call returning
false mutates nothing.  In `koS8` white immediately recaptures the ko at
`(1,1)`: the recapture is rejected (by the superko check — the ko check of
`GoBoard` compares against the previously *placed* point and never fires),
but the call has already removed black's stone at `(1,2)` and credited white
a capture, and `revertMove` restores neither: the call returns false with
the grid and the capture tally changed. -/
theorem claim2_theorem :
    (GoBoard.successFps bInit koSeq).length = 8 ∧
    (GoBoard.placeStone koS8 1 1 2).1 = false ∧
    GoBoard.getCell koS8.board 1 2 = 1 ∧
    GoBoard.getCell (GoBoard.placeStone koS8 1 1 2).2.board 1 2 = 0 ∧
    koS8.captured2 = 0 ∧
    (GoBoard.placeStone koS8 1 1 2).2.captured2 = 1 := by
  refine ⟨by decide, by decide, by decide, by decide, by decide, by decide⟩

/-- Claim C3, counterexample.  The claim states that after a single-stone
capture by a single-stone group the ko point is set to the captured stone's
location.  In `koS7` black plays `(1,2)`, capturing exactly the white stone
at `(1,1)` with a capturing group of size one, yet `GoBoard.placeStone` sets
the ko point to the *placed* stone `(1,2)`, not to the captured `(1,1)`. -/
theorem claim3_counterexample :
    (GoBoard.placeStone koS7 1 2 1).1 = true ∧
    ((GoBoard.placeStone koS7 1 2 1).2.moveHistory.head?.map
      (fun e => e.captured)) = some [(1,1)] ∧
    (GoBoard.getGroup (GoBoard.placeStone koS7 1 2 1).2.board 9 1 2).length = 1 ∧
    (GoBoard.placeStone koS7 1 2 1).2.koPoint = some (1,2) ∧
    (GoBoard.placeStone koS7 1 2 1).2.koPoint ≠ some (1,1) := by
  refine ⟨by decide, by decide, by decide, by decide, by decide⟩

/-- Claim C4, counterexample.  The claim states that `placeStone` returns
false for any move whose resulting grid matches a previously seen position.
`GoGame` keeps no fingerprint history: in the triple-ko position the six-move
cycle `tkCycle` is fully accepted (every move legal under the simple-ko
rule), and the final grid is identical to the grid six moves earlier — a
successful move reproduced an earlier whole-board fingerprint. -/
theorem claim4_counterexample :
    ((GoGame.playAll gInit tkSetup).map (fun s => s.board)) = some tkBoardAfterSetup ∧
    ((GoGame.playAll gInit (tkSetup ++ tkCycle)).map (fun s => s.board)) =
      some tkBoardAfterSetup ∧
    tkCycle ≠ [] := by
  refine ⟨by decide, by decide, by decide⟩

/-- Claim C5 (code bug).  The claim states that undoing to the initial state
and replaying the identical moves succeeds, and that `undoMove` restores the
prior ko point.  On a fresh `GoBoard`, black plays `(0,0)`, `undoMove`
restores the empty grid — but replaying the very same move is rejected,
because `undoMove` leaves the undone position in the superko history.
Undoing the ko capture of `koSeq` likewise leaves the ko point at `(1,2)`
although it was `none` before the capture. -/
theorem claim5_theorem :
    (GoBoard.placeStone bInit 0 0 1).1 = true ∧
    (GoBoard.undoMove (GoBoard.placeStone bInit 0 0 1).2).board = bInit.board ∧
    (GoBoard.placeStone (GoBoard.undoMove (GoBoard.placeStone bInit 0 0 1).2) 0 0 1).1 = false ∧
    koS7.koPoint = none ∧
    (GoBoard.undoMove koS8).koPoint = some (1,2) := by
  refine ⟨by decide, by decide, by decide, by decide, by decide⟩

/-- Claim C7 (code bug).  The claim states that under Japanese scoring each
player scores the stones they captured plus their territory plus komi for
white.  In `koS8` black has captured one white stone (`captured1 = 1`,
`captured2 = 0`) and owns two territory points, so the claim gives black
`1 + 2 = 3` and white `0 + 6.5 = 6.5`; but `calculateScoreJapanese` credits
`captured[2]` to black and `captured[1]` to white — the tallies are swapped —
and returns black `2`, white `7.5` (`4` and `15` half-points; komi 6.5 is
`13` half-points). -/
theorem claim7_theorem :
    koS8.captured1 = 1 ∧ koS8.captured2 = 0 ∧
    GoRules.calculateScoreJapanese [] koS8 13 =
      { black2 := 4, white2 := 15, winner := 2 } := by
  refine ⟨by decide, by decide, by decide⟩

/-- Claim C8, counterexample.  The claim states that after two consecutive
passes no further move is accepted.  Two passes do set `gameOver`, but
`GoGame.placeStone` never consults `gameOver`: the next move is accepted and
the stone is placed. -/
theorem claim8_counterexample :
    (GoGame.pass (GoGame.pass gInit).2).2.gameOver = true ∧
    (GoGame.pass (GoGame.pass gInit).2).2.consecutivePasses = 2 ∧
    (GoGame.placeStone (GoGame.pass (GoGame.pass gInit).2).2 0 0).1 = true ∧
    GoGame.getCell
      (GoGame.placeStone (GoGame.pass (GoGame.pass gInit).2).2 0 0).2.board 0 0 = 1 := by
  refine ⟨by decide, by decide, by decide, by decide⟩

/-- Claim C9, counterexample.  The claim conditions only on the absence of a
transposition-table hit; but without such a hit `getBestMove` still returns
the raw neural-network move (skipping the tree search) whenever the
`Math.random() < 0.3` shortcut fires.  Here the table misses, the only root
child (the visit-count maximizer) carries move `(1,1)`, and yet `(0,0)` is
returned. -/
theorem claim9_counterexample :
    GoAI.getBestMove none true (some (0,0))
      [{ move := some (1,1), visits := 5, wins2 := 0 }] none = some (0,0) ∧
    GoAI.bestChild [{ move := some (1,1), visits := 5, wins2 := 0 }] =
      some { move := some (1,1), visits := 5, wins2 := 0 } ∧
    (some ((0:Nat),(0:Nat)) : Option (Nat × Nat)) ≠ some (1,1) := by
  refine ⟨by decide, by decide, by decide⟩

/-- Claim C10, counterexample.  The claim states that a game constructed with
handicap `h > 0` pre-places `h` black stones.  A 9×9 board has only four
star points in `getHandicapPositions`, so `GoGame(9, …, handicap 5)` places
just `4` black stones although `handicap = 5`. -/
theorem claim10_counterexample :
    (GoGame.mkGame 9 13 5 GoGame.RuleSet.chinese).handicap = 5 ∧
    GoGame.countStones (GoGame.mkGame 9 13 5 GoGame.RuleSet.chinese).board 9 1 = 4 := by
  refine ⟨by decide, by decide⟩

/-! ## General theorems: amended claims C8, C9, C10 -/

/-- Passing always increments the consecutive-pass counter. -/
theorem pass_passes (s : GoGame.GameState) :
    ((GoGame.pass s).2).consecutivePasses = s.consecutivePasses + 1 := by
  simp only [GoGame.pass, GoGame.saveState]
  split <;> rfl

/-- A pass with at least one pass already pending ends the game. -/
theorem pass_gameOver (t : GoGame.GameState) (h : 1 ≤ t.consecutivePasses) :
    ((GoGame.pass t).2).gameOver = true := by
  simp only [GoGame.pass, GoGame.saveState]
  split
  · rfl
  · omega

/-- Claim C8, amended.  Two consecutive passes always set `gameOver` (the
`Ended` state, with scoring then callable); however `GoGame.placeStone` never
reads `gameOver`, so its acceptance and board effect are identical whatever
that flag is — rejection of moves after the game end is enforced only by the
UI controller, not by the engine itself. -/
theorem claim8_theorem :
    (∀ s : GoGame.GameState, (GoGame.pass (GoGame.pass s).2).2.gameOver = true) ∧
    (∀ (s : GoGame.GameState) (x y : Nat) (b : Bool),
      (GoGame.placeStone { s with gameOver := b } x y).1 = (GoGame.placeStone s x y).1 ∧
      (GoGame.placeStone { s with gameOver := b } x y).2.board =
        (GoGame.placeStone s x y).2.board) := by
  constructor
  · intro s
    exact pass_gameOver _ (by rw [pass_passes]; omega)
  · intro s x y b
    simp only [GoGame.placeStone]
    rw [show GoGame.isValidMove { s with gameOver := b } x y = GoGame.isValidMove s x y from rfl]
    split <;> exact ⟨rfl, rfl⟩

/-- The JS `reduce` used for move selection returns an element of the list
(or the seed) whose visit count dominates the seed and every element. -/
theorem bestChild_foldl_spec (l : List GoAI.Node) (init : GoAI.Node) :
    (l.foldl (fun best c => if best.visits < c.visits then c else best) init = init ∨
      l.foldl (fun best c => if best.visits < c.visits then c else best) init ∈ l) ∧
    init.visits ≤ (l.foldl (fun best c => if best.visits < c.visits then c else best) init).visits ∧
    ∀ c ∈ l, c.visits ≤ (l.foldl (fun best c => if best.visits < c.visits then c else best) init).visits := by
  induction l generalizing init with
  | nil => simp
  | cons a t ih =>
    simp only [List.foldl_cons]
    by_cases hc : init.visits < a.visits
    · rw [if_pos hc]
      obtain ⟨h1, h2, h3⟩ := ih a
      refine ⟨?_, le_trans (Nat.le_of_lt hc) h2, ?_⟩
      · rcases h1 with h | h
        · right; rw [h]; exact List.mem_cons_self a t
        · right; exact List.mem_cons_of_mem a h
      · intro c hcm
        rcases List.mem_cons.mp hcm with rfl | hmem
        · exact h2
        · exact h3 c hmem
    · rw [if_neg hc]
      obtain ⟨h1, h2, h3⟩ := ih init
      refine ⟨?_, h2, ?_⟩
      · rcases h1 with h | h
        · left; exact h
        · right; exact List.mem_cons_of_mem a h
      · intro c hcm
        rcases List.mem_cons.mp hcm with rfl | hmem
        · exact le_trans (Nat.le_of_not_lt hc) h2
        · exact h3 c hmem

/-- Claim C9, amended.  When `getBestMove` actually runs the tree search —
that is, there is no transposition-table hit *and* the probability-0.3
neural-network shortcut does not fire — the returned move is the move of a
root child with the highest visit count (first-encountered on ties, since
the JS comparison is strict), not the child with the highest win rate. -/
theorem claim9_theorem (children : List GoAI.Node) (nn rm : Option (Nat × Nat))
    (h : children ≠ []) :
    ∃ bc, GoAI.bestChild children = some bc ∧
      GoAI.getBestMove none false nn children rm = bc.move ∧
      bc ∈ children ∧
      ∀ c ∈ children, c.visits ≤ bc.visits := by
  match children, h with
  | a :: t, _ =>
    obtain ⟨h1, _, h3⟩ := bestChild_foldl_spec (a :: t) a
    refine ⟨_, rfl, rfl, ?_, h3⟩
    rcases h1 with h | h
    · rw [h]; exact List.mem_cons_self a t
    · exact h

/-- Witness for `claim9_theorem` at a concrete two-child root. -/
theorem claim9_witness :
    aiChildrenW ≠ [] ∧
    ∃ bc, GoAI.bestChild aiChildrenW = some bc ∧
      GoAI.getBestMove none false none aiChildrenW none = bc.move ∧
      bc ∈ aiChildrenW ∧
      ∀ c ∈ aiChildrenW, c.visits ≤ bc.visits :=
  ⟨by decide, claim9_theorem aiChildrenW none none (by decide)⟩

/-- Claim C10, amended.  For the supported sizes 9, 13, 19: the constructor
records no history entry for handicap stones, white moves first exactly when
`h > 0`, and the number of pre-placed black stones is `min h n` where `n` is
the number of star points the source generates (4 on 9×9, 9 on 13×13 and
19×19) — not always `h`; with `h = 0` the board starts empty. -/
theorem claim10_theorem (size hc : Nat) (komi2 : Int) (rs : GoGame.RuleSet)
    (hs : size = 9 ∨ size = 13 ∨ size = 19) :
    (GoGame.mkGame size komi2 hc rs).history = [] ∧
    (GoGame.mkGame size komi2 hc rs).currentPlayer = (if 0 < hc then 2 else 1) ∧
    GoGame.countStones (GoGame.mkGame size komi2 hc rs).board size 1 =
      min hc (if size = 9 then 4 else 9) ∧
    (hc = 0 → (GoGame.mkGame size komi2 hc rs).board =
      List.replicate size (List.replicate size 0)) := by
  refine ⟨rfl, rfl, ?_, ?_⟩
  · rcases hs with rfl | rfl | rfl
    · rcases Nat.lt_or_ge hc 4 with h4 | h4
      · interval_cases hc <;> (simp only [GoGame.mkGame]; decide)
      · have ht : GoGame.getHandicapPositions 9 hc = [(2,2),(6,2),(2,6),(6,6)] := by
          show ([(2,2),(6,2),(2,6),(6,6)] : List GoGame.Coord).take hc = _
          exact List.take_of_length_le (by simp; omega)
        have hb : (GoGame.mkGame 9 komi2 hc rs).board =
            GoGame.placeHandicapStones (List.replicate 9 (List.replicate 9 0))
              [(2,2),(6,2),(2,6),(6,6)] := by
          simp only [GoGame.mkGame, ht]
          rw [if_pos (by omega)]
        rw [hb, show (if (9:Nat) = 9 then 4 else 9) = 4 from rfl, Nat.min_eq_right h4]
        decide
    · rcases Nat.lt_or_ge hc 9 with h4 | h4
      · interval_cases hc <;> (simp only [GoGame.mkGame]; decide)
      · have ht : GoGame.getHandicapPositions 13 hc =
            [(3,3),(9,3),(3,9),(9,9),(6,3),(6,9),(3,6),(9,6),(6,6)] := by
          show ([(3,3),(9,3),(3,9),(9,9),(6,3),(6,9),(3,6),(9,6),(6,6)] :
            List GoGame.Coord).take hc = _
          exact List.take_of_length_le (by simp; omega)
        have hb : (GoGame.mkGame 13 komi2 hc rs).board =
            GoGame.placeHandicapStones (List.replicate 13 (List.replicate 13 0))
              [(3,3),(9,3),(3,9),(9,9),(6,3),(6,9),(3,6),(9,6),(6,6)] := by
          simp only [GoGame.mkGame, ht]
          rw [if_pos (by omega)]
        rw [hb, show (if (13:Nat) = 9 then 4 else 9) = 9 from rfl, Nat.min_eq_right h4]
        decide
    · rcases Nat.lt_or_ge hc 9 with h4 | h4
      · interval_cases hc <;> (simp only [GoGame.mkGame]; decide)
      · have ht : GoGame.getHandicapPositions 19 hc =
            [(3,3),(15,3),(3,15),(15,15),(9,3),(9,15),(3,9),(15,9),(9,9)] := by
          show ([(3,3),(15,3),(3,15),(15,15),(9,3),(9,15),(3,9),(15,9),(9,9)] :
            List GoGame.Coord).take hc = _
          exact List.take_of_length_le (by simp; omega)
        have hb : (GoGame.mkGame 19 komi2 hc rs).board =
            GoGame.placeHandicapStones (List.replicate 19 (List.replicate 19 0))
              [(3,3),(15,3),(3,15),(15,15),(9,3),(9,15),(3,9),(15,9),(9,9)] := by
          simp only [GoGame.mkGame, ht]
          rw [if_pos (by omega)]
        rw [hb, show (if (19:Nat) = 9 then 4 else 9) = 9 from rfl, Nat.min_eq_right h4]
        decide
  · intro h0
    subst h0
    rcases hs with rfl | rfl | rfl <;> rfl

/-- Witness for `claim10_theorem`: a 19×19 game with handicap 5 pre-places
exactly five black stones, records no history and gives white the move. -/
theorem claim10_witness :
    ((19:Nat) = 9 ∨ (19:Nat) = 13 ∨ (19:Nat) = 19) ∧
    ((GoGame.mkGame 19 13 5 GoGame.RuleSet.japanese).history = [] ∧
     (GoGame.mkGame 19 13 5 GoGame.RuleSet.japanese).currentPlayer =
       (if 0 < 5 then 2 else 1) ∧
     GoGame.countStones (GoGame.mkGame 19 13 5 GoGame.RuleSet.japanese).board 19 1 =
       min 5 (if (19:Nat) = 9 then 4 else 9) ∧
     ((5:Nat) = 0 → (GoGame.mkGame 19 13 5 GoGame.RuleSet.japanese).board =
       List.replicate 19 (List.replicate 19 0))) :=
  ⟨by decide, claim10_theorem 19 5 13 GoGame.RuleSet.japanese (by decide)⟩

/-! ## Superko bookkeeping of `GoBoard.placeStone` (claim C4, amended) -/

namespace GoBoard

theorem find?_append_none {α : Type} (p : α → Bool) (l1 l2 : List α)
    (h : (l1 ++ l2).find? p = none) : l1.find? p = none := by
  induction l1 with
  | nil => rfl
  | cons a t ih =>
    cases hp : p a with
    | false =>
      simp only [List.cons_append, List.find?_cons, hp] at h
      simp only [List.find?_cons, hp]
      exact ih h
    | true =>
      simp only [List.cons_append, List.find?_cons, hp] at h
      exact absurd h (by simp)

theorem find?_append_right {α : Type} (p : α → Bool) (l1 l2 : List α)
    (h : l1.find? p = none) : (l1 ++ l2).find? p = l2.find? p := by
  induction l1 with
  | nil => rfl
  | cons a t ih =>
    cases hp : p a with
    | false =>
      simp only [List.find?_cons, hp] at h
      simp only [List.cons_append, List.find?_cons, hp]
      exact ih h
    | true =>
      simp only [List.find?_cons, hp] at h
      exact absurd h (by simp)

theorem lookup_append_none_left (l1 l2 : List (List Nat × Nat)) (f : List Nat)
    (h : historyLookup (l1 ++ l2) f = none) : historyLookup l1 f = none := by
  unfold historyLookup at h ⊢
  cases hf : (l1 ++ l2).find? (fun e => e.1 = f) with
  | none => rw [find?_append_none _ _ _ hf]
  | some e => rw [hf] at h; exact absurd h (by simp)

theorem lookup_find?_none (l : List (List Nat × Nat)) (f : List Nat)
    (h : historyLookup l f = none) : l.find? (fun e => e.1 = f) = none := by
  unfold historyLookup at h
  cases hf : l.find? (fun e => e.1 = f) with
  | none => rfl
  | some e => rw [hf] at h; exact absurd h (by simp)

theorem lookup_append_single (l : List (List Nat × Nat)) (f : List Nat) (c : Nat)
    (h : historyLookup l f = none) : historyLookup (l ++ [(f, c)]) f = some c := by
  unfold historyLookup
  rw [find?_append_right _ _ _ (lookup_find?_none l f h)]
  simp [List.find?_cons]

theorem lookup_some_bound (s : BoardState) (f : List Nat) (c : Nat)
    (hc : CountsOK s) (h : historyLookup s.superKoHistory f = some c) : 1 ≤ c := by
  unfold historyLookup at h
  cases hf : s.superKoHistory.find? (fun e => e.1 = f) with
  | none => rw [hf] at h; exact absurd h (by simp)
  | some e =>
    rw [hf] at h
    have he : e ∈ s.superKoHistory := List.mem_of_find?_eq_some hf
    have : e.2 = c := by simpa using h
    exact this ▸ hc e he

theorem historySet_of_lookup_none (l : List (List Nat × Nat)) (fp : List Nat)
    (v : Nat) (h : historyLookup l fp = none) :
    historySet l fp v = l ++ [(fp, v)] := by
  unfold historySet
  rw [lookup_find?_none l fp h]
  simp

/-- Inversion of a rejected `placeStone`: the superko history is untouched. -/
theorem place_fail_skh (s : BoardState) (x y p : Nat) (s' : BoardState)
    (h : placeStone s x y p = (false, s')) : s'.superKoHistory = s.superKoHistory := by
  simp only [placeStone] at h
  split at h
  · cases h; rfl
  · split at h
    · cases h; rfl
    · split at h
      · cases h; rfl
      · split at h
        · cases h; rfl
        · cases h

/-- Inversion of an accepted `placeStone`: the post-move fingerprint was not
recorded before, and it is appended with count one. -/
theorem place_success_skh (s : BoardState) (x y p : Nat) (s' : BoardState)
    (h : placeStone s x y p = (true, s')) (hc : CountsOK s) :
    historyLookup s.superKoHistory (getBoardStateString s'.board) = none ∧
    s'.superKoHistory =
      s.superKoHistory ++ [(getBoardStateString s'.board, 1)] := by
  simp only [placeStone] at h
  split at h
  · cases h
  · split at h
    · cases h
    · split at h
      · cases h
      · split at h
        · cases h
        · rename_i hsk
          cases h
          set cap := checkCaptures (placeTentative s x y p).board
            (placeTentative s x y p).size x y p with hcap
          set s2 := withCaptures (placeTentative s x y p) p cap with hs2
          rw [show (commitMove s2 x y p cap (getBoardStateString s.board)
            (getBoardStateString s2.board)).board = s2.board from rfl]
          set fp := getBoardStateString s2.board with hfp
          have hskh2 : s2.superKoHistory = s.superKoHistory := rfl
          have hl : historyLookup s.superKoHistory fp = none := by
            cases hq : historyLookup s.superKoHistory fp with
            | none => rfl
            | some c =>
              exfalso
              apply hsk
              unfold checkSuperKo
              rw [hskh2, hq]
              simp [lookup_some_bound s fp c hc hq]
          refine ⟨hl, ?_⟩
          rw [show (commitMove s2 x y p cap (getBoardStateString s.board)
              fp).superKoHistory =
            historySet s2.superKoHistory fp
              ((historyLookup s2.superKoHistory fp).getD 0 + 1) from rfl]
          rw [hskh2, hl]
          exact historySet_of_lookup_none s.superKoHistory fp _ hl

end GoBoard

namespace GoBoard

theorem countsOK_place (s : BoardState) (x y p : Nat) (b : Bool) (s' : BoardState)
    (hps : placeStone s x y p = (b, s')) (hc : CountsOK s) : CountsOK s' := by
  cases b
  · intro e he
    rw [place_fail_skh s x y p s' hps] at he
    exact hc e he
  · obtain ⟨_, hap⟩ := place_success_skh s x y p s' hps hc
    intro e he
    rw [hap] at he
    rcases List.mem_append.mp he with h1 | h1
    · exact hc e h1
    · have : e = (getBoardStateString s'.board, 1) := by simpa using h1
      rw [this]

theorem successFps_spec (ms : List (Nat × Nat × Nat)) : ∀ s : BoardState, CountsOK s →
    (∀ f ∈ successFps s ms, historyLookup s.superKoHistory f = none) ∧
    (successFps s ms).Pairwise (· ≠ ·) := by
  induction ms with
  | nil =>
    intro s _
    refine ⟨?_, by simp [successFps]⟩
    intro f hf
    simp [successFps] at hf
  | cons m ms ih =>
    intro s hc
    rcases hps : placeStone s m.1 m.2.1 m.2.2 with ⟨b, s'⟩
    obtain ⟨ih1, ih2⟩ := ih s' (countsOK_place s m.1 m.2.1 m.2.2 b s' hps hc)
    cases b
    · have hrw : successFps s (m :: ms) = successFps s' ms := by
        simp [successFps, hps]
      rw [hrw]
      have hsk := place_fail_skh s m.1 m.2.1 m.2.2 s' hps
      refine ⟨?_, ih2⟩
      intro f hf
      rw [← hsk]
      exact ih1 f hf
    · obtain ⟨hl, hap⟩ := place_success_skh s m.1 m.2.1 m.2.2 s' hps hc
      have hrw : successFps s (m :: ms) =
          getBoardStateString s'.board :: successFps s' ms := by
        simp [successFps, hps]
      rw [hrw]
      constructor
      · intro f hf
        rcases List.mem_cons.mp hf with rfl | hf1
        · exact hl
        · have h1 := ih1 f hf1
          rw [hap] at h1
          exact lookup_append_none_left _ _ _ h1
      · refine List.Pairwise.cons ?_ ih2
        intro g hg hEq
        have h1 := ih1 g hg
        rw [← hEq, hap] at h1
        rw [lookup_append_single s.superKoHistory (getBoardStateString s'.board) 1 hl] at h1
        exact absurd h1 (by simp)

end GoBoard

/-- Claim C4, amended (`GoBoard` side).  `GoBoard.placeStone` does enforce
positional superko: over any sequence of `placeStone` calls on one board
(from a fresh `GoBoard` of any size), the whole-board fingerprints recorded
after the successful moves are pairwise distinct — no accepted move ever
reproduces the position left by an earlier accepted move. -/
theorem claim4_theorem (size : Nat) (ms : List (Nat × Nat × Nat)) :
    (GoBoard.successFps (GoBoard.mkBoard size) ms).Pairwise (· ≠ ·) :=
  (GoBoard.successFps_spec ms (GoBoard.mkBoard size)
    (fun e he => by simp [GoBoard.mkBoard] at he)).2


/-! ## Connectivity, capture and liberty analysis of `GoGame` (claims C1, C3, C6) -/

namespace GoGame

theorem mem_singleton_ite {c : Prop} [Decidable c] (a m : Coord) :
    m ∈ (if c then [a] else ([] : List Coord)) ↔ c ∧ m = a := by
  split
  · simp; tauto
  · simp; tauto

theorem mem_neighbors {size x y : Nat} {m : Coord} :
    m ∈ neighbors size x y ↔
      (m = (x, y + 1) ∧ x < size ∧ y + 1 < size) ∨
      (m = (x + 1, y) ∧ x + 1 < size ∧ y < size) ∨
      (m = (x, y - 1) ∧ x < size ∧ 1 ≤ y ∧ y - 1 < size) ∨
      (m = (x - 1, y) ∧ 1 ≤ x ∧ x - 1 < size ∧ y < size) := by
  simp only [neighbors, List.mem_append, mem_singleton_ite]
  tauto

theorem neighbors_inRange {size x y : Nat} {m : Coord}
    (h : m ∈ neighbors size x y) : inRange size m := by
  rcases mem_neighbors.mp h with ⟨rfl, h1⟩ | ⟨rfl, h1⟩ | ⟨rfl, h1⟩ | ⟨rfl, h1⟩ <;>
    exact ⟨by omega, by omega⟩

theorem neighbors_length_le (size x y : Nat) : (neighbors size x y).length ≤ 4 := by
  simp only [neighbors, List.length_append]
  split <;> split <;> split <;> split <;> simp

theorem neighbors_symm {size x y : Nat} {m : Coord} (hx : x < size) (hy : y < size)
    (h : m ∈ neighbors size x y) : (x, y) ∈ neighbors size m.1 m.2 := by
  rcases mem_neighbors.mp h with ⟨rfl, h1⟩ | ⟨rfl, h1⟩ | ⟨rfl, h1⟩ | ⟨rfl, h1⟩ <;>
    rw [mem_neighbors]
  · right; right; left
    refine ⟨?_, by omega, by omega, by omega⟩
    simp
  · right; right; right
    refine ⟨?_, by omega, by omega, by omega⟩
    simp
  · left
    refine ⟨?_, by omega, by omega⟩
    have : y - 1 + 1 = y := by omega
    simp [this]
  · right; left
    refine ⟨?_, by omega, by omega⟩
    have : x - 1 + 1 = x := by omega
    simp [this]

theorem reach_color {b : Board} {size : Nat} {u v : Coord}
    (h : Reach b size u v) : getCell b v.1 v.2 = getCell b u.1 u.2 := by
  induction h with
  | refl => rfl
  | tail _ hstep ih => rw [hstep.2, ih]

theorem reach_inRange {b : Board} {size : Nat} {u v : Coord}
    (h : Reach b size u v) (hu : inRange size u) : inRange size v := by
  induction h with
  | refl => exact hu
  | tail _ hstep _ => exact neighbors_inRange hstep.1

theorem reach_symm {b : Board} {size : Nat} {u v : Coord}
    (hu : inRange size u) (h : Reach b size u v) : Reach b size v u := by
  induction h with
  | refl => exact Relation.ReflTransGen.refl
  | tail hr hstep ih =>
    rename_i w v'
    have hw : inRange size w := reach_inRange hr hu
    refine Relation.ReflTransGen.head ?_ ih
    exact ⟨neighbors_symm hw.1 hw.2 hstep.1, hstep.2.symm⟩

theorem reach_trans {b : Board} {size : Nat} {u v w : Coord}
    (h1 : Reach b size u v) (h2 : Reach b size v w) : Reach b size u w :=
  Relation.ReflTransGen.trans h1 h2

theorem getCell_eq (b : Board) (x y : Nat) :
    getCell b x y = ((b[y]?.getD [])[x]?).getD 0 := by
  simp [getCell, List.getD, List.get?_eq_getElem?]

theorem getCell_setCell_same {b : Board} {x y : Nat} (v : Nat)
    (hy : y < b.length) (hx : x < (b.getD y []).length) :
    getCell (setCell b x y v) x y = v := by
  have hx' : x < (b[y]?.getD []).length := by
    simpa [List.getD, List.get?_eq_getElem?] using hx
  rw [getCell_eq]
  simp only [setCell, List.getD, List.get?_eq_getElem?]
  rw [List.getElem?_set_self (by omega)]
  simp only [Option.getD_some]
  rw [List.getElem?_set_self hx']
  rfl

theorem getCell_setCell_other {b : Board} {x y x' y' : Nat} (v : Nat)
    (h : (x', y') ≠ (x, y)) :
    getCell (setCell b x y v) x' y' = getCell b x' y' := by
  rw [getCell_eq, getCell_eq]
  simp only [setCell, List.getD, List.get?_eq_getElem?]
  by_cases hy : y' = y
  · subst hy
    have hx : x ≠ x' := by
      intro hxx; exact h (by rw [hxx])
    by_cases hyl : y' < b.length
    · rw [List.getElem?_set_self hyl]
      simp only [Option.getD_some]
      rw [List.getElem?_set_ne hx]
    · have hn1 : (b.set y' ((b[y']?.getD []).set x v))[y']? = none :=
        List.getElem?_eq_none (by simp only [List.length_set]; omega)
      have hn2 : b[y']? = none := List.getElem?_eq_none (by omega)
      rw [hn1, hn2]
  · rw [List.getElem?_set_ne (fun hc => hy hc.symm)]

theorem length_setCell (b : Board) (x y v : Nat) :
    (setCell b x y v).length = b.length := by
  simp [setCell]

theorem row_length_setCell {b : Board} {x y : Nat} (v : Nat) (j : Nat) :
    ((setCell b x y v).getD j []).length = (b.getD j []).length := by
  simp only [setCell, List.getD, List.get?_eq_getElem?]
  by_cases hj : j = y
  · subst hj
    by_cases hjl : j < b.length
    · rw [List.getElem?_set_self hjl]
      rw [List.getElem?_eq_getElem hjl]
      simp
    · have hn1 : (b.set j ((b[j]?.getD []).set x v))[j]? = none :=
        List.getElem?_eq_none (by simp only [List.length_set]; omega)
      have hn2 : b[j]? = none := List.getElem?_eq_none (by omega)
      rw [hn1, hn2]
  · rw [List.getElem?_set_ne (fun hc => hj hc.symm)]

theorem length_allCells (size : Nat) : (allCells size).length = size * size := by
  simp [allCells]

theorem mem_allCells {size : Nat} {c : Coord} (h : inRange size c) :
    c ∈ allCells size := by
  obtain ⟨a, b⟩ := c
  obtain ⟨ha, hb⟩ := h
  have hs : 0 < size := by omega
  refine List.mem_map.mpr ⟨a * size + b, List.mem_range.mpr ?_, ?_⟩
  · calc a * size + b < a * size + size := by omega
      _ = (a + 1) * size := by ring
      _ ≤ size * size := Nat.mul_le_mul_right size (by omega)
  · have hdiv : (a * size + b) / size = a := by
      rw [Nat.add_comm, Nat.add_mul_div_right _ _ hs, Nat.div_eq_of_lt hb]
      omega
    have hmod : (a * size + b) % size = b := by
      rw [Nat.add_comm, Nat.add_mul_mod_self_right, Nat.mod_eq_of_lt hb]
    rw [hdiv, hmod]

theorem length_filter_mono {α : Type} (l : List α) (p q : α → Bool)
    (hpq : ∀ a, q a = true → p a = true) :
    (l.filter q).length ≤ (l.filter p).length := by
  induction l with
  | nil => simp
  | cons a t ih =>
    cases hq : q a with
    | false =>
      rw [List.filter_cons_of_neg (by simp [hq])]
      cases hp : p a with
      | false =>
        rw [List.filter_cons_of_neg (by simp [hp])]
        exact ih
      | true =>
        rw [List.filter_cons_of_pos hp]
        simp only [List.length_cons]
        omega
    | true =>
      rw [List.filter_cons_of_pos hq, List.filter_cons_of_pos (hpq a hq)]
      simp only [List.length_cons]
      omega

theorem length_filter_strict {α : Type} (l : List α) (p q : α → Bool)
    (hpq : ∀ a, q a = true → p a = true)
    {c : α} (hc : c ∈ l) (hpc : p c = true) (hqc : q c = false) :
    (l.filter q).length < (l.filter p).length := by
  induction l with
  | nil => simp at hc
  | cons a t ih =>
    rcases List.mem_cons.mp hc with rfl | hct
    · rw [List.filter_cons_of_pos hpc, List.filter_cons_of_neg (by simp [hqc])]
      simp only [List.length_cons]
      exact Nat.lt_succ_of_le (length_filter_mono t p q hpq)
    · have hms := length_filter_mono t p q hpq
      have hst := ih hct
      cases hq : q a with
      | false =>
        rw [List.filter_cons_of_neg (by simp [hq])]
        cases hp : p a with
        | false =>
          rw [List.filter_cons_of_neg (by simp [hp])]
          exact hst
        | true =>
          rw [List.filter_cons_of_pos hp]
          simp only [List.length_cons]
          omega
      | true =>
        rw [List.filter_cons_of_pos hq, List.filter_cons_of_pos (hpq a hq)]
        simp only [List.length_cons]
        omega

theorem unseen_cons_lt {size : Nat} {c : Coord} {visited : List Coord}
    (hin : inRange size c) (hnv : c ∉ visited) :
    unseen size (c :: visited) < unseen size visited := by
  refine length_filter_strict (allCells size) _ _ ?_ (mem_allCells hin) ?_ ?_
  · intro a ha
    simp only [decide_eq_true_eq] at ha ⊢
    intro hav
    exact ha (List.mem_cons_of_mem _ hav)
  · simpa using hnv
  · simp

theorem unseen_nil_le (size : Nat) : unseen size [] ≤ size * size := by
  calc unseen size [] ≤ (allCells size).length := List.length_filter_le _ _
    _ = size * size := length_allCells size

theorem unseen_mono_cons (size : Nat) (c : Coord) (visited : List Coord) :
    unseen size (c :: visited) ≤ unseen size visited := by
  refine length_filter_mono (allCells size) _ _ ?_
  intro a ha
  simp only [decide_eq_true_eq] at ha ⊢
  intro hav
  exact ha (List.mem_cons_of_mem _ hav)

theorem mem_addUnique {l : List Coord} {c m : Coord} :
    m ∈ addUnique l c ↔ m ∈ l ∨ m = c := by
  simp only [addUnique]
  split
  · rename_i hcl
    constructor
    · exact Or.inl
    · rintro (h | rfl)
      · exact h
      · exact hcl
  · simp

theorem cand_reach {b : Board} {size color : Nat} {start c : Coord}
    (hstart : getCell b start.1 start.2 = color)
    (hc : Cand b size start c) (hcol : getCell b c.1 c.2 = color) :
    Reach b size start c := by
  rcases hc with rfl | ⟨g, hg, hn⟩
  · exact Relation.ReflTransGen.refl
  · exact hg.tail ⟨hn, by rw [hcol, reach_color hg, hstart]⟩

theorem getGroupAux_inv (b : Board) (size color : Nat) (start : Coord)
    (hstart : getCell b start.1 start.2 = color) :
    ∀ (fl : Nat) (stack visited group : List Coord),
      AuxInv b size color start stack visited group →
      stack.length + 5 * unseen size visited ≤ fl →
      AuxInv b size color start
        (getGroupAux b size color fl stack visited group).2.2
        (getGroupAux b size color fl stack visited group).2.1
        (getGroupAux b size color fl stack visited group).1 ∧
      (getGroupAux b size color fl stack visited group).2.2 = [] := by
  intro fl
  induction fl with
  | zero =>
    intro stack visited group hInv hm
    have hstk : stack = [] := List.length_eq_zero.mp (by omega)
    subst hstk
    exact ⟨hInv, rfl⟩
  | succ n ih =>
    intro stack visited group hInv hm
    obtain ⟨hI1, hI2, hI3, hI4, hI5⟩ := hInv
    match stack with
    | [] => exact ⟨⟨hI1, hI2, hI3, hI4, hI5⟩, rfl⟩
    | c :: rest =>
      by_cases hcv : c ∈ visited
      · rw [show getGroupAux b size color (n + 1) (c :: rest) visited group =
            getGroupAux b size color n rest visited group from by
          simp [getGroupAux, hcv]]
        refine ih rest visited group ⟨?_, hI2, hI3, ?_, ?_⟩ ?_
        · exact fun m hmem => hI1 m (List.mem_cons_of_mem _ hmem)
        · intro g hg m hn
          rcases hI4 g hg m hn with h | h
          · exact Or.inl h
          · rcases List.mem_cons.mp h with rfl | h'
            · exact Or.inl hcv
            · exact Or.inr h'
        · rcases hI5 with h | h | h
          · exact Or.inl h
          · rcases List.mem_cons.mp h with rfl | h'
            · exact Or.inr (Or.inr hcv)
            · exact Or.inr (Or.inl h')
          · exact Or.inr (Or.inr h)
        · simp only [List.length_cons] at hm
          omega
      · have hcand := hI1 c (List.mem_cons_self _ _)
        by_cases hcol : getCell b c.1 c.2 = color
        · rw [show getGroupAux b size color (n + 1) (c :: rest) visited group =
              getGroupAux b size color n
                (((neighbors size c.1 c.2).filter
                  (fun m => !(m ∈ c :: visited))).reverse ++ rest)
                (c :: visited) (group ++ [c]) from by
            simp [getGroupAux, hcv, hcol]]
          have hreach : Reach b size start c := cand_reach hstart hcand.1 hcol
          refine ih _ _ _ ⟨?_, ?_, ?_, ?_, ?_⟩ ?_
          · intro m hmem
            rcases List.mem_append.mp hmem with h | h
            · rw [List.mem_reverse] at h
              have hn := (List.mem_filter.mp h).1
              exact ⟨Or.inr ⟨c, hreach, hn⟩, neighbors_inRange hn⟩
            · exact hI1 m (List.mem_cons_of_mem _ h)
          · intro m hmem
            rcases List.mem_append.mp hmem with h | h
            · exact hI2 m h
            · rw [List.mem_singleton.mp h]
              exact hreach
          · intro v hv _
            rcases List.mem_cons.mp hv with rfl | h'
            · exact List.mem_append.mpr (Or.inr (List.mem_singleton.mpr rfl))
            · rename_i hvcol
              exact List.mem_append.mpr (Or.inl (hI3 v h' hvcol))
          · intro g hg m hn
            rcases List.mem_append.mp hg with h | h
            · rcases hI4 g h m hn with h' | h'
              · exact Or.inl (List.mem_cons_of_mem _ h')
              · rcases List.mem_cons.mp h' with rfl | h''
                · exact Or.inl (List.mem_cons_self _ _)
                · exact Or.inr (List.mem_append.mpr (Or.inr h''))
            · rw [List.mem_singleton.mp h] at hn
              by_cases hmv : m ∈ c :: visited
              · exact Or.inl hmv
              · refine Or.inr (List.mem_append.mpr (Or.inl ?_))
                rw [List.mem_reverse]
                exact List.mem_filter.mpr ⟨hn, by simpa using hmv⟩
          · rcases hI5 with h | h | h
            · exact Or.inl (List.mem_append.mpr (Or.inl h))
            · rcases List.mem_cons.mp h with rfl | h'
              · exact Or.inr (Or.inr (List.mem_cons_self _ _))
              · exact Or.inr (Or.inl (List.mem_append.mpr (Or.inr h')))
            · exact Or.inr (Or.inr (List.mem_cons_of_mem _ h))
          · have h1 : ((neighbors size c.1 c.2).filter
                (fun m => !(m ∈ c :: visited))).length ≤ 4 := by
              calc ((neighbors size c.1 c.2).filter
                    (fun m => !(m ∈ c :: visited))).length
                  ≤ (neighbors size c.1 c.2).length := List.length_filter_le _ _
                _ ≤ 4 := neighbors_length_le size c.1 c.2
            have h2 : unseen size (c :: visited) < unseen size visited :=
              unseen_cons_lt hcand.2 hcv
            simp only [List.length_append, List.length_reverse,
              List.length_cons] at hm ⊢
            omega
        · rw [show getGroupAux b size color (n + 1) (c :: rest) visited group =
              getGroupAux b size color n rest (c :: visited) group from by
            simp [getGroupAux, hcv, hcol]]
          refine ih _ _ _ ⟨?_, hI2, ?_, ?_, ?_⟩ ?_
          · exact fun m hmem => hI1 m (List.mem_cons_of_mem _ hmem)
          · intro v hv hvcol
            rcases List.mem_cons.mp hv with rfl | h'
            · exact absurd hvcol hcol
            · exact hI3 v h' hvcol
          · intro g hg m hn
            rcases hI4 g hg m hn with h | h
            · exact Or.inl (List.mem_cons_of_mem _ h)
            · rcases List.mem_cons.mp h with rfl | h'
              · exact Or.inl (List.mem_cons_self _ _)
              · exact Or.inr h'
          · rcases hI5 with h | h | h
            · exact Or.inl h
            · rcases List.mem_cons.mp h with rfl | h'
              · exact Or.inr (Or.inr (List.mem_cons_self _ _))
              · exact Or.inr (Or.inl h')
            · exact Or.inr (Or.inr (List.mem_cons_of_mem _ h))
          · have h2 : unseen size (c :: visited) < unseen size visited :=
              unseen_cons_lt hcand.2 hcv
            simp only [List.length_cons] at hm
            omega

/-- The flood-fill of game.js `getGroup` computes exactly the maximal
4-connected same-colour component of the start cell. -/
theorem mem_getGroup_iff {b : Board} {size x y : Nat}
    (hx : x < size) (hy : y < size) (hc0 : getCell b x y ≠ 0) (c : Coord) :
    c ∈ getGroup b size x y ↔ Reach b size (x, y) c := by
  have hstart : getCell b (x, y).1 (x, y).2 = getCell b x y := rfl
  have hinit : AuxInv b size (getCell b x y) (x, y) [(x, y)] [] [] := by
    refine ⟨?_, by simp, by simp, by simp, Or.inr (Or.inl (List.mem_singleton.mpr rfl))⟩
    intro m hmem
    rw [List.mem_singleton.mp hmem]
    exact ⟨Or.inl rfl, hx, hy⟩
  have hmeas : ([(x, y)] : List Coord).length + 5 * unseen size [] ≤ fuel size := by
    have := unseen_nil_le size
    simp only [List.length_singleton, fuel]
    have h5 : 5 * size * size = 5 * (size * size) := by ring
    omega
  obtain ⟨⟨hI1, hI2, hI3, hI4, hI5⟩, hstk⟩ :=
    getGroupAux_inv b size (getCell b x y) (x, y) hstart (fuel size) [(x, y)] [] [] hinit hmeas
  have hgrp : getGroup b size x y =
      (getGroupAux b size (getCell b x y) (fuel size) [(x, y)] [] []).1 := by
    simp [getGroup, hc0]
  rw [hgrp]
  constructor
  · exact hI2 c
  · intro hr
    have hstart_mem :
        (x, y) ∈ (getGroupAux b size (getCell b x y) (fuel size) [(x, y)] [] []).1 := by
      rcases hI5 with h | h | h
      · exact h
      · rw [hstk] at h
        simp at h
      · exact hI3 _ h hstart
    have hclosed : ∀ g ∈ (getGroupAux b size (getCell b x y) (fuel size) [(x, y)] [] []).1,
        ∀ n ∈ neighbors size g.1 g.2, getCell b n.1 n.2 = getCell b x y →
          n ∈ (getGroupAux b size (getCell b x y) (fuel size) [(x, y)] [] []).1 := by
      intro g hg m hn hmc
      rcases hI4 g hg m hn with h | h
      · exact hI3 _ h hmc
      · rw [hstk] at h
        simp at h
    induction hr with
    | refl => exact hstart_mem
    | tail hr2 hstep ih2 =>
      rename_i u v
      have hu := ih2
      have hvcol : getCell b v.1 v.2 = getCell b x y := by
        rw [hstep.2, reach_color hr2, hstart]
      exact hclosed u hu v hstep.1 hvcol

theorem getGroup_empty {b : Board} {size x y : Nat}
    (hc0 : getCell b x y = 0) : getGroup b size x y = [] := by
  simp [getGroup, hc0]

theorem mem_libFold_inner (b : Board) (nbrs : List Coord) (acc : List Coord)
    (z : Coord) :
    z ∈ nbrs.foldl
        (fun acc2 m => if getCell b m.1 m.2 = 0 then addUnique acc2 m else acc2)
        acc ↔
      z ∈ acc ∨ ∃ m ∈ nbrs, getCell b m.1 m.2 = 0 ∧ z = m := by
  induction nbrs generalizing acc with
  | nil => simp
  | cons a t ih =>
    simp only [List.foldl_cons]
    rw [ih]
    by_cases ha : getCell b a.1 a.2 = 0
    · rw [if_pos ha, mem_addUnique]
      constructor
      · rintro ((h | h) | ⟨m, hm, hm0, hzm⟩)
        · exact Or.inl h
        · exact Or.inr ⟨a, List.mem_cons_self _ _, ha, h⟩
        · exact Or.inr ⟨m, List.mem_cons_of_mem _ hm, hm0, hzm⟩
      · rintro (h | ⟨m, hm, hm0, hzm⟩)
        · exact Or.inl (Or.inl h)
        · rcases List.mem_cons.mp hm with hma | hmt
          · exact Or.inl (Or.inr (hzm.trans hma))
          · exact Or.inr ⟨m, hmt, hm0, hzm⟩
    · rw [if_neg ha]
      constructor
      · rintro (h | ⟨m, hm, hm0, hzm⟩)
        · exact Or.inl h
        · exact Or.inr ⟨m, List.mem_cons_of_mem _ hm, hm0, hzm⟩
      · rintro (h | ⟨m, hm, hm0, hzm⟩)
        · exact Or.inl h
        · rcases List.mem_cons.mp hm with hma | hmt
          · exact absurd (hma ▸ hm0) ha
          · exact Or.inr ⟨m, hmt, hm0, hzm⟩

theorem mem_libFold (b : Board) (size : Nat) (gs : List Coord)
    (acc : List Coord) (z : Coord) :
    z ∈ gs.foldl
        (fun acc g =>
          (neighbors size g.1 g.2).foldl
            (fun acc2 m => if getCell b m.1 m.2 = 0 then addUnique acc2 m else acc2)
            acc)
        acc ↔
      z ∈ acc ∨ ∃ g ∈ gs, z ∈ neighbors size g.1 g.2 ∧ getCell b z.1 z.2 = 0 := by
  induction gs generalizing acc with
  | nil => simp
  | cons a t ih =>
    simp only [List.foldl_cons]
    rw [ih]
    constructor
    · rintro (h | ⟨g, hg, hn, h0⟩)
      · rcases (mem_libFold_inner b _ acc z).mp h with h' | ⟨m, hm, hm0, hzm⟩
        · exact Or.inl h'
        · exact Or.inr ⟨a, List.mem_cons_self _ _, hzm ▸ hm, hzm ▸ hm0⟩
      · exact Or.inr ⟨g, List.mem_cons_of_mem _ hg, hn, h0⟩
    · rintro (h | ⟨g, hg, hn, h0⟩)
      · exact Or.inl ((mem_libFold_inner b _ acc z).mpr (Or.inl h))
      · rcases List.mem_cons.mp hg with hga | hgt
        · exact Or.inl ((mem_libFold_inner b _ acc z).mpr
            (Or.inr ⟨z, hga ▸ hn, h0, rfl⟩))
        · exact Or.inr ⟨g, hgt, hn, h0⟩

/-- game.js `getGroupLiberties` computes exactly the liberties of the
component of the start cell. -/
theorem mem_getGroupLiberties_iff {b : Board} {size x y : Nat}
    (hx : x < size) (hy : y < size) (hc0 : getCell b x y ≠ 0) (z : Coord) :
    z ∈ getGroupLiberties b size x y ↔ IsLiberty b size (x, y) z := by
  unfold getGroupLiberties
  rw [mem_libFold]
  simp only [List.not_mem_nil, false_or]
  constructor
  · rintro ⟨g, hg, hn, h0⟩
    exact ⟨g, (mem_getGroup_iff hx hy hc0 g).mp hg, hn, h0⟩
  · rintro ⟨g, hg, hn, h0⟩
    exact ⟨g, (mem_getGroup_iff hx hy hc0 g).mpr hg, hn, h0⟩

/-- A group has some liberty iff its liberty list is nonempty. -/
theorem getGroupLiberties_pos_iff {b : Board} {size x y : Nat}
    (hx : x < size) (hy : y < size) (hc0 : getCell b x y ≠ 0) :
    0 < (getGroupLiberties b size x y).length ↔ ∃ z, IsLiberty b size (x, y) z := by
  rw [List.length_pos_iff_exists_mem]
  constructor
  · rintro ⟨z, hz⟩
    exact ⟨z, (mem_getGroupLiberties_iff hx hy hc0 z).mp hz⟩
  · rintro ⟨z, hz⟩
    exact ⟨z, (mem_getGroupLiberties_iff hx hy hc0 z).mpr hz⟩

theorem setCell_WF {b : Board} {size : Nat} (x y v : Nat)
    (h : WFBoard b size) : WFBoard (setCell b x y v) size := by
  refine ⟨by rw [length_setCell, h.1], fun j hj => ?_⟩
  rw [row_length_setCell]
  exact h.2 j hj

theorem getCell_setCell_self {b : Board} {size : Nat} (v : Nat) {z : Coord}
    (hWF : WFBoard b size) (hz : inRange size z) :
    getCell (setCell b z.1 z.2 v) z.1 z.2 = v :=
  getCell_setCell_same v (by rw [hWF.1]; exact hz.2) (by rw [hWF.2 z.2 hz.2]; exact hz.1)

theorem getCell_setCell_ne {b : Board} {x y : Nat} (v : Nat) {z : Coord}
    (h : z ≠ (x, y)) :
    getCell (setCell b x y v) z.1 z.2 = getCell b z.1 z.2 :=
  getCell_setCell_other v (by rw [Prod.mk.eta]; exact h)

theorem getD_replicate {α : Type} (n i : Nat) (a d : α) :
    (List.replicate n a).getD i d = if i < n then a else d := by
  simp only [List.getD, List.get?_eq_getElem?, List.getElem?_replicate]
  split <;> rfl

theorem getCell_empty_board (size x y : Nat) :
    getCell (List.replicate size (List.replicate size 0)) x y = 0 := by
  simp only [getCell, getD_replicate]
  split
  · rw [getD_replicate]
    split <;> rfl
  · rfl

theorem empty_board_WF (size : Nat) :
    WFBoard (List.replicate size (List.replicate size 0)) size := by
  refine ⟨List.length_replicate size _, fun j hj => ?_⟩
  rw [getD_replicate, if_pos hj, List.length_replicate]

/-- Clearing a list of cells: the fold used by game.js `captureStones`. -/
theorem clearFold_WF {size : Nat} :
    ∀ (g : List Coord) (bb : Board), WFBoard bb size →
      WFBoard (g.foldl (fun b c => setCell b c.1 c.2 0) bb) size
  | [], bb, h => h
  | c :: g, bb, h => by
    simp only [List.foldl_cons]
    exact clearFold_WF g _ (setCell_WF c.1 c.2 0 h)

theorem clearFold_getCell {size : Nat} :
    ∀ (g : List Coord) (bb : Board), WFBoard bb size → (∀ c ∈ g, inRange size c) →
      ∀ z : Coord,
        getCell (g.foldl (fun b c => setCell b c.1 c.2 0) bb) z.1 z.2 =
          if z ∈ g then 0 else getCell bb z.1 z.2
  | [], bb, _, _, z => by simp
  | c :: g, bb, hWF, hg, z => by
    simp only [List.foldl_cons]
    rw [clearFold_getCell g _ (setCell_WF c.1 c.2 0 hWF)
      (fun c' hc' => hg c' (List.mem_cons_of_mem _ hc'))]
    by_cases hzg : z ∈ g
    · rw [if_pos hzg, if_pos (List.mem_cons_of_mem _ hzg)]
    · rw [if_neg hzg]
      by_cases hzc : z = c
      · rw [if_pos (by rw [hzc]; exact List.mem_cons_self _ _), hzc]
        exact getCell_setCell_self 0 hWF (hg c (List.mem_cons_self _ _))
      · rw [if_neg (by simp [hzc, hzg]), getCell_setCell_ne 0 hzc]

/-- Clearing one whole maximal component leaves the components of every
surviving stone unchanged. -/
theorem reach_clear_iff {size : Nat} {bb : Board} {m : Coord}
    (hWF : WFBoard bb size) (hm : inRange size m) (hmc : getCell bb m.1 m.2 ≠ 0) :
    ∀ c, inRange size c →
      getCell ((getGroup bb size m.1 m.2).foldl
        (fun b g => setCell b g.1 g.2 0) bb) c.1 c.2 ≠ 0 →
      ∀ z,
        Reach ((getGroup bb size m.1 m.2).foldl
          (fun b g => setCell b g.1 g.2 0) bb) size c z ↔ Reach bb size c z := by
  set g := getGroup bb size m.1 m.2 with hgdef
  set bb' := g.foldl (fun b c => setCell b c.1 c.2 0) bb with hbb'
  have hgmem : ∀ c, c ∈ g ↔ Reach bb size m c := fun c =>
    mem_getGroup_iff hm.1 hm.2 hmc c
  have hgIn : ∀ c ∈ g, inRange size c := fun c hc =>
    reach_inRange ((hgmem c).mp hc) hm
  have hval : ∀ z : Coord, getCell bb' z.1 z.2 = if z ∈ g then 0 else getCell bb z.1 z.2 :=
    clearFold_getCell g bb hWF hgIn
  intro c hcIn hc z
  have hcg : c ∉ g := by
    intro hcg
    rw [hval c, if_pos hcg] at hc
    exact hc rfl
  have hcv : getCell bb' c.1 c.2 = getCell bb c.1 c.2 := by
    rw [hval c, if_neg hcg]
  constructor
  · intro hr
    induction hr with
    | refl => exact Relation.ReflTransGen.refl
    | tail hr' hstep ih =>
      rename_i u v
      have hu0 : getCell bb' u.1 u.2 ≠ 0 := by
        rw [reach_color hr']
        exact hc
      have hv0 : getCell bb' v.1 v.2 ≠ 0 := by
        rw [hstep.2]
        exact hu0
      have hug : u ∉ g := by
        intro hug
        rw [hval u, if_pos hug] at hu0
        exact hu0 rfl
      have hvg : v ∉ g := by
        intro hvg
        rw [hval v, if_pos hvg] at hv0
        exact hv0 rfl
      refine ih.tail ⟨hstep.1, ?_⟩
      have h1 := hval u
      have h2 := hval v
      rw [if_neg hug] at h1
      rw [if_neg hvg] at h2
      rw [← h1, ← h2]
      exact hstep.2
  · intro hr
    induction hr with
    | refl => exact Relation.ReflTransGen.refl
    | tail hr' hstep ih =>
      rename_i u v
      have hug : u ∉ g := by
        intro hug
        have h1 : Reach bb size m u := (hgmem u).mp hug
        have h2 : Reach bb size u c := reach_symm hcIn hr'
        exact hcg ((hgmem c).mpr (h1.trans h2))
      have hvg : v ∉ g := by
        intro hvg
        have h1 : Reach bb size m v := (hgmem v).mp hvg
        have h2 : Reach bb size v c := reach_symm hcIn (hr'.tail hstep)
        exact hcg ((hgmem c).mpr (h1.trans h2))
      refine ih.tail ⟨hstep.1, ?_⟩
      have h1 := hval u
      have h2 := hval v
      rw [if_neg hug] at h1
      rw [if_neg hvg] at h2
      rw [h1, h2]
      exact hstep.2

theorem opp_ne_zero {p : Nat} (hp : p = 1 ∨ p = 2) : 3 - p ≠ 0 := by
  rcases hp with rfl | rfl <;> decide

theorem opp_ne_self {p : Nat} (hp : p = 1 ∨ p = 2) : 3 - p ≠ p := by
  rcases hp with rfl | rfl <;> decide

theorem captureStep_spec (size p : Nat) (b1 : Board) (x y : Nat)
    (hp : p = 1 ∨ p = 2)
    (st : Board × List Coord) (m : Coord) (hm : m ∈ neighbors size x y)
    (hInv : CapInv size p b1 x y st) :
    CapInv size p b1 x y (captureStep size (3 - p) st m) ∧
    (∀ z : Coord, getCell st.1 z.1 z.2 = 0 →
      getCell (captureStep size (3 - p) st m).1 z.1 z.2 = 0) ∧
    (∃ d, (captureStep size (3 - p) st m).2 = st.2 ++ d) ∧
    ((captureStep size (3 - p) st m).2 = st.2 →
      (captureStep size (3 - p) st m).1 = st.1) := by
  obtain ⟨bb, cap⟩ := st
  obtain ⟨hW, hXY, hVal, hCmp, hCap0, hSeed⟩ := hInv
  by_cases h1 : getCell bb m.1 m.2 = 3 - p
  · by_cases h2 : (getGroupLiberties bb size m.1 m.2).length = 0
    · have hstep : captureStep size (3 - p) (bb, cap) m =
          ((getGroup bb size m.1 m.2).foldl (fun b c => setCell b c.1 c.2 0) bb,
            cap ++ getGroup bb size m.1 m.2) := by
        simp [captureStep, h1, h2]
      rw [hstep]
      set g := getGroup bb size m.1 m.2 with hgdef
      set bb' := g.foldl (fun b c => setCell b c.1 c.2 0) bb with hbb'
      have hmIn : inRange size m := neighbors_inRange hm
      have hmc : getCell bb m.1 m.2 ≠ 0 := by
        rw [h1]; exact opp_ne_zero hp
      have hgmem : ∀ c, c ∈ g ↔ Reach bb size m c := fun c =>
        mem_getGroup_iff hmIn.1 hmIn.2 hmc c
      have hgIn : ∀ c ∈ g, inRange size c := fun c hc =>
        reach_inRange ((hgmem c).mp hc) hmIn
      have hval : ∀ z : Coord,
          getCell bb' z.1 z.2 = if z ∈ g then 0 else getCell bb z.1 z.2 :=
        clearFold_getCell g bb hW hgIn
      have hmg : m ∈ g := (hgmem m).mpr Relation.ReflTransGen.refl
      have hReach := reach_clear_iff hW hmIn hmc
      refine ⟨⟨clearFold_WF g bb hW, ?_, ?_, ?_, ?_, ?_⟩, ?_, ⟨g, rfl⟩, ?_⟩
      · have hxyg : ((x, y) : Coord) ∉ g := by
          intro hxyg
          have := reach_color ((hgmem (x, y)).mp hxyg)
          rw [hXY, h1] at this
          exact opp_ne_self hp this.symm
        have := hval (x, y)
        rw [if_neg hxyg] at this
        exact this.trans hXY
      · intro c hc
        have hv := hval c
        by_cases hcg : c ∈ g
        · rw [hv, if_pos hcg] at hc
          exact absurd rfl hc
        · rw [if_neg hcg] at hv
          rw [hv] at hc ⊢
          exact hVal c hc
      · intro c hcIn hc z
        have hv := hval c
        have hcg : c ∉ g := by
          intro hcg
          rw [hv, if_pos hcg] at hc
          exact hc rfl
        rw [if_neg hcg] at hv
        have hcb : getCell bb c.1 c.2 ≠ 0 := by
          rw [← hv]; exact hc
        rw [hReach c hcIn hc z]
        exact hCmp c hcIn hcb z
      · intro z hz
        rcases List.mem_append.mp hz with hz | hz
        · have hv := hval z
          by_cases hzg : z ∈ g
          · rw [hv, if_pos hzg]
          · rw [hv, if_neg hzg]
            exact hCap0 z hz
        · have hv := hval z
          rw [hv, if_pos hz]
      · intro _
        exact ⟨m, hm, List.mem_append.mpr (Or.inr hmg)⟩
      · intro z hz
        have hv := hval z
        by_cases hzg : z ∈ g
        · rw [hv, if_pos hzg]
        · rw [hv, if_neg hzg]
          exact hz
      · intro hcapeq
        exfalso
        have : cap.length + g.length = cap.length := by
          have := congrArg List.length hcapeq
          simpa using this
        have hg0 : g = [] := List.length_eq_zero.mp (by omega)
        rw [hg0] at hmg
        exact List.not_mem_nil m hmg
    · have hstep : captureStep size (3 - p) (bb, cap) m = (bb, cap) := by
        simp [captureStep, h1, h2]
      rw [hstep]
      exact ⟨⟨hW, hXY, hVal, hCmp, hCap0, hSeed⟩, fun z hz => hz,
        ⟨[], by simp⟩, fun _ => rfl⟩
  · have hstep : captureStep size (3 - p) (bb, cap) m = (bb, cap) := by
      simp [captureStep, h1]
    rw [hstep]
    exact ⟨⟨hW, hXY, hVal, hCmp, hCap0, hSeed⟩, fun z hz => hz,
      ⟨[], by simp⟩, fun _ => rfl⟩

theorem capFold_spec (size p : Nat) (b1 : Board) (x y : Nat)
    (hp : p = 1 ∨ p = 2) :
    ∀ (L : List Coord) (st : Board × List Coord),
      (∀ m ∈ L, m ∈ neighbors size x y) → CapInv size p b1 x y st →
      CapInv size p b1 x y (L.foldl (captureStep size (3 - p)) st) ∧
      (∀ z : Coord, getCell st.1 z.1 z.2 = 0 →
        getCell (L.foldl (captureStep size (3 - p)) st).1 z.1 z.2 = 0) ∧
      (∃ d, (L.foldl (captureStep size (3 - p)) st).2 = st.2 ++ d) ∧
      ((L.foldl (captureStep size (3 - p)) st).2 = st.2 →
        (L.foldl (captureStep size (3 - p)) st).1 = st.1) ∧
      (∀ m ∈ L, getCell (L.foldl (captureStep size (3 - p)) st).1 m.1 m.2 = 3 - p →
        0 < (getGroupLiberties
          (L.foldl (captureStep size (3 - p)) st).1 size m.1 m.2).length)
  | [], st, _, hInv => by
    refine ⟨hInv, fun z hz => hz, ⟨[], by simp⟩, fun _ => rfl, ?_⟩
    intro m hm
    exact absurd hm (List.not_mem_nil m)
  | m :: L, st, hL, hInv => by
    have hmN : m ∈ neighbors size x y := hL m (List.mem_cons_self _ _)
    obtain ⟨hInv', hMono', ⟨d0, hd0⟩, hUnch'⟩ :=
      captureStep_spec size p b1 x y hp st m hmN hInv
    set st' := captureStep size (3 - p) st m with hst'
    obtain ⟨hInvF, hMonoF, ⟨d1, hd1⟩, hUnchF, hPostF⟩ :=
      capFold_spec size p b1 x y hp L st'
        (fun m' hm' => hL m' (List.mem_cons_of_mem _ hm')) hInv'
    have hfold : (m :: L).foldl (captureStep size (3 - p)) st =
        L.foldl (captureStep size (3 - p)) st' := by
      simp [hst']
    rw [hfold]
    refine ⟨hInvF, ?_, ?_, ?_, ?_⟩
    · exact fun z hz => hMonoF z (hMono' z hz)
    · exact ⟨d0 ++ d1, by rw [hd1, hd0, List.append_assoc]⟩
    · intro heq
      have hlen : st.2.length + (d0.length + d1.length) = st.2.length := by
        have := congrArg List.length heq
        rw [hd1, hd0] at this
        simpa [Nat.add_assoc] using this
      have hd0e : d0 = [] := List.length_eq_zero.mp (by omega)
      have hd1e : d1 = [] := List.length_eq_zero.mp (by omega)
      have h1 : st'.2 = st.2 := by rw [hd0, hd0e, List.append_nil]
      have h2 : (L.foldl (captureStep size (3 - p)) st').2 = st'.2 := by
        rw [hd1, hd1e, List.append_nil]
      rw [hUnchF h2, hUnch' h1]
    · intro m' hm' hmf
      rcases List.mem_cons.mp hm' with hmm | hm'L
      · -- the head neighbour: case analysis on what its own step did
        subst hmm
        have hmIn : inRange size m' := neighbors_inRange hmN
        have hopp0 : (3 : Nat) - p ≠ 0 := opp_ne_zero hp
        obtain ⟨hW, hXY, hVal, hCmp, hCap0, hSeed⟩ := hInv
        by_cases h1 : getCell st.1 m'.1 m'.2 = 3 - p
        · by_cases h2 : (getGroupLiberties st.1 size m'.1 m'.2).length = 0
          · -- captured: the seed cell is empty from now on, contradiction
            exfalso
            have hstep : st'.1 =
                (getGroup st.1 size m'.1 m'.2).foldl
                  (fun b c => setCell b c.1 c.2 0) st.1 := by
              rw [hst']
              obtain ⟨bb, cap⟩ := st
              simp [captureStep, h1, h2]
            have hmc : getCell st.1 m'.1 m'.2 ≠ 0 := by rw [h1]; exact hopp0
            have hmg : m' ∈ getGroup st.1 size m'.1 m'.2 :=
              (mem_getGroup_iff hmIn.1 hmIn.2 hmc m').mpr Relation.ReflTransGen.refl
            have hgIn : ∀ c ∈ getGroup st.1 size m'.1 m'.2, inRange size c :=
              fun c hc => reach_inRange
                ((mem_getGroup_iff hmIn.1 hmIn.2 hmc c).mp hc) hmIn
            have hz : getCell st'.1 m'.1 m'.2 = 0 := by
              rw [hstep, clearFold_getCell _ _ hW hgIn m', if_pos hmg]
            have := hMonoF m' hz
            rw [hmf] at this
            exact hopp0 this
          · -- enemy group with a liberty: that liberty survives to the end
            have hstId : st' = st := by
              rw [hst']
              obtain ⟨bb, cap⟩ := st
              simp [captureStep, h1, h2]
            have hmc : getCell st.1 m'.1 m'.2 ≠ 0 := by rw [h1]; exact hopp0
            have hpos : 0 < (getGroupLiberties st.1 size m'.1 m'.2).length :=
              Nat.pos_of_ne_zero h2
            obtain ⟨z, k, hk, hzn, hz0⟩ :=
              (getGroupLiberties_pos_iff hmIn.1 hmIn.2 hmc).mp hpos
            have hmfne : getCell (L.foldl (captureStep size (3 - p)) st').1
                m'.1 m'.2 ≠ 0 := by rw [hmf]; exact hopp0
            obtain ⟨hWF, hXYF, hValF, hCmpF, _⟩ := hInvF
            refine (getGroupLiberties_pos_iff hmIn.1 hmIn.2 hmfne).mpr ⟨z, k, ?_, hzn, ?_⟩
            · exact (hCmpF m' hmIn hmfne k).mpr ((hCmp m' hmIn hmc k).mp hk)
            · refine hMonoF z ?_
              rw [hstId]
              exact hz0
        · -- not an enemy stone at its step: it cannot be one at the end
          exfalso
          have hstId : st' = st := by
            rw [hst']
            obtain ⟨bb, cap⟩ := st
            simp [captureStep, h1]
          have hmfne : getCell (L.foldl (captureStep size (3 - p)) st').1
              m'.1 m'.2 ≠ 0 := by rw [hmf]; exact hopp0
          obtain ⟨hWF, hXYF, hValF, hCmpF, _⟩ := hInvF
          have hb1 : getCell (L.foldl (captureStep size (3 - p)) st').1 m'.1 m'.2 =
              getCell b1 m'.1 m'.2 := hValF m' hmfne
          have hstm : getCell st.1 m'.1 m'.2 ≠ 0 := by
            intro h0
            have := hMonoF m' (by rw [hstId]; exact h0)
            exact hmfne this
          have hb1' : getCell st.1 m'.1 m'.2 = getCell b1 m'.1 m'.2 := hVal m' hstm
          rw [hb1', ← hb1, hmf] at h1
          exact h1 rfl
      · exact hPostF m' hm'L hmf

/-- Summary of game.js `captureStones` on the board `b1` that already holds
the newly placed stone: the board stays well-formed, the placed stone and the
values and components of all surviving stones are preserved, empties only
grow, captured cells are empty afterwards, a nonempty capture contains a
neighbour of `(x, y)`, an empty capture means the board is untouched, and no
surviving enemy group seeded at a neighbour of `(x, y)` is liberty-free. -/
theorem captureStones_spec (size p x y : Nat) (b1 : Board)
    (hp : p = 1 ∨ p = 2) (hWF1 : WFBoard b1 size)
    (hxyp : getCell b1 x y = p) :
    CapInv size p b1 x y (captureStones size b1 x y p) ∧
    (∀ z : Coord, getCell b1 z.1 z.2 = 0 →
      getCell (captureStones size b1 x y p).1 z.1 z.2 = 0) ∧
    ((captureStones size b1 x y p).2 = [] →
      (captureStones size b1 x y p).1 = b1) ∧
    (∀ m ∈ neighbors size x y,
      getCell (captureStones size b1 x y p).1 m.1 m.2 = 3 - p →
      0 < (getGroupLiberties (captureStones size b1 x y p).1 size m.1 m.2).length) := by
  have hInit : CapInv size p b1 x y (b1, []) := by
    refine ⟨hWF1, hxyp, fun c _ => rfl, fun c _ _ z => Iff.rfl, ?_, ?_⟩
    · intro z hz
      exact absurd hz (List.not_mem_nil z)
    · intro h
      exact absurd rfl h
  obtain ⟨hInv, hMono, hExt, hUnch, hPost⟩ :=
    capFold_spec size p b1 x y hp (neighbors size x y) (b1, [])
      (fun m hm => hm) hInit
  exact ⟨hInv, hMono, hUnch, hPost⟩

theorem placeStone_fst (s : GameState) (x y : Nat) :
    (placeStone s x y).1 = isValidMove s x y := by
  by_cases h : isValidMove s x y = true
  · simp [placeStone, h]
  · rw [Bool.not_eq_true] at h
    simp [placeStone, h]

theorem isSuicideMove_true_iff {size : Nat} {b : Board} {x y player : Nat}
    (hx : x < size) (hy : y < size) (hWF : WFBoard b size)
    (hp : player = 1 ∨ player = 2) :
    isSuicideMove size b x y player = true ↔ SpecSuicide size b x y player := by
  have hb' : getCell (setCell b x y player) x y = player :=
    @getCell_setCell_self b size player (x, y) hWF ⟨hx, hy⟩
  have hpne : getCell (setCell b x y player) x y ≠ 0 := by
    rw [hb']
    rcases hp with rfl | rfl <;> decide
  unfold isSuicideMove SpecSuicide
  rw [Bool.and_eq_true, Bool.not_eq_true', Bool.not_eq_true']
  refine and_congr ?_ ?_
  · rw [decide_eq_false_iff_not]
    exact not_congr (getGroupLiberties_pos_iff hx hy hpne)
  · rw [show ∀ bo : Bool, (bo = false ↔ ¬ bo = true) from by decide]
    rw [List.any_eq_true]
    apply not_congr
    constructor
    · rintro ⟨m, hm, hbody⟩
      by_cases hcm : getCell (setCell b x y player) m.1 m.2 = 3 - player
      · rw [if_pos hcm, decide_eq_true_eq] at hbody
        have hmIn := neighbors_inRange hm
        have hcm0 : getCell (setCell b x y player) m.1 m.2 ≠ 0 := by
          rw [hcm]
          exact opp_ne_zero hp
        refine ⟨m, hm, hcm, ?_⟩
        intro hex
        have := (getGroupLiberties_pos_iff hmIn.1 hmIn.2 hcm0).mpr hex
        omega
      · rw [if_neg hcm] at hbody
        exact absurd hbody (by simp)
    · rintro ⟨m, hm, hcm, hnl⟩
      refine ⟨m, hm, ?_⟩
      rw [if_pos hcm, decide_eq_true_eq]
      have hmIn := neighbors_inRange hm
      have hcm0 : getCell (setCell b x y player) m.1 m.2 ≠ 0 := by
        rw [hcm]
        exact opp_ne_zero hp
      by_contra hne
      have hpos : 0 < (getGroupLiberties (setCell b x y player) size m.1 m.2).length := by
        omega
      exact hnl ((getGroupLiberties_pos_iff hmIn.1 hmIn.2 hcm0).mp hpos)

theorem isValidMove_iff (s : GameState) (x y : Nat) :
    isValidMove s x y = true ↔
      (x < s.size ∧ y < s.size) ∧ getCell s.board x y = 0 ∧
      s.koPoint ≠ some (x, y) ∧
      isSuicideMove s.size s.board x y s.currentPlayer = false := by
  unfold isValidMove
  by_cases hb : x < s.size ∧ y < s.size
  · rw [if_pos hb]
    by_cases hocc : getCell s.board x y = 0
    · rw [if_neg (by simp [hocc])]
      cases hko : s.koPoint with
      | none => simp [hb, hocc]
      | some k =>
        by_cases hk : k.1 = x ∧ k.2 = y
        · have hkxy : k = (x, y) := Prod.ext_iff.mpr ⟨hk.1, hk.2⟩
          simp [hb, hocc, hk, hkxy]
        · have hkxy : k ≠ (x, y) := by
            intro he
            exact hk ⟨congrArg Prod.fst he, congrArg Prod.snd he⟩
          simp [hb, hocc, hk, hkxy]
    · rw [if_pos (by simpa using hocc)]
      simp [hocc]
  · rw [if_neg hb]
    simp [hb]

/-- Placing a stone on an empty point does not disturb the components of
stones already on the board (forward direction). -/
theorem reach_place_of_reach {b0 : Board} {size x y pl : Nat}
    (hxy0 : getCell b0 x y = 0) {w : Coord} (hw : getCell b0 w.1 w.2 ≠ 0) :
    ∀ z, Reach b0 size w z → Reach (setCell b0 x y pl) size w z := by
  intro z hr
  induction hr with
  | refl => exact Relation.ReflTransGen.refl
  | tail hr' hstep ih =>
    rename_i u v
    have hu0 : getCell b0 u.1 u.2 ≠ 0 := by
      rw [reach_color hr']
      exact hw
    have hv0 : getCell b0 v.1 v.2 ≠ 0 := by
      rw [hstep.2]
      exact hu0
    have huxy : u ≠ (x, y) := by
      intro he
      rw [he] at hu0
      exact hu0 hxy0
    have hvxy : v ≠ (x, y) := by
      intro he
      rw [he] at hv0
      exact hv0 hxy0
    refine ih.tail ⟨hstep.1, ?_⟩
    rw [getCell_setCell_ne pl hvxy, getCell_setCell_ne pl huxy]
    exact hstep.2

theorem setCell_cells {b0 : Board} {size x y p : Nat} (hp : p = 1 ∨ p = 2)
    (hWF : WFBoard b0 size) (hx : x < size) (hy : y < size)
    (hCells : CellsOK b0) : CellsOK (setCell b0 x y p) := by
  intro c
  by_cases hcxy : c = (x, y)
  · rw [hcxy]
    have := @getCell_setCell_self b0 size p (x, y) hWF ⟨hx, hy⟩
    rw [show getCell (setCell b0 x y p) ((x, y) : Coord).1 ((x, y) : Coord).2 =
        getCell (setCell b0 x y p) x y from rfl, this]
    rcases hp with rfl | rfl
    · exact Or.inr (Or.inl rfl)
    · exact Or.inr (Or.inr rfl)
  · rw [@getCell_setCell_ne b0 x y p c hcxy]
    exact hCells c

/-- Main step of the liberty invariant: after a non-suicidal placement and
the ensuing captures, every group on the resulting board has a liberty. -/
theorem place_capture_noDead (size p x y : Nat) (b0 : Board)
    (hp : p = 1 ∨ p = 2) (hWF : WFBoard b0 size) (hCells : CellsOK b0)
    (hND : NoDeadGroups b0 size)
    (hx : x < size) (hy : y < size) (hc0 : getCell b0 x y = 0)
    (hsuic : isSuicideMove size b0 x y p = false) :
    NoDeadGroups (captureStones size (setCell b0 x y p) x y p).1 size := by
  have hpne : p ≠ 0 := by rcases hp with rfl | rfl <;> decide
  set b1 := setCell b0 x y p with hb1
  have hWF1 : WFBoard b1 size := setCell_WF x y p hWF
  have hxyp : getCell b1 x y = p := @getCell_setCell_self b0 size p (x, y) hWF ⟨hx, hy⟩
  have hCells1 : CellsOK b1 := setCell_cells hp hWF hx hy hCells
  obtain ⟨⟨hWFf, hXYf, hValf, hCmpf, hCap0f, hSeedf⟩, hMonof, hUnchf, hPostf⟩ :=
    captureStones_spec size p x y b1 hp hWF1 hxyp
  set bF := (captureStones size b1 x y p).1 with hbF
  intro w hwIn hwF
  have hwb1 : getCell bF w.1 w.2 = getCell b1 w.1 w.2 := hValf w hwF
  have hwb1ne : getCell b1 w.1 w.2 ≠ 0 := by rw [← hwb1]; exact hwF
  have hCompw : ∀ z, Reach bF size w z ↔ Reach b1 size w z := hCmpf w hwIn hwF
  by_cases hwx : Reach b1 size w (x, y)
  · -- the component of the newly placed stone
    simp only [isSuicideMove] at hsuic
    rw [show ∀ a b2 : Bool, ((!a && !b2) = false) ↔ (a = true ∨ b2 = true) from by decide]
      at hsuic
    rw [← hb1] at hsuic
    rcases hsuic with hLib | hCap
    · rw [decide_eq_true_eq] at hLib
      obtain ⟨z, k, hk, hzn, hz0⟩ :=
        (getGroupLiberties_pos_iff hx hy (by rw [hxyp]; exact hpne)).mp hLib
      exact ⟨z, k, (hCompw k).mpr (hwx.trans hk), hzn, hMonof z hz0⟩
    · rw [List.any_eq_true] at hCap
      obtain ⟨m, hmN, hbody⟩ := hCap
      by_cases hcm : getCell b1 m.1 m.2 = 3 - p
      · rw [if_pos hcm, decide_eq_true_eq] at hbody
        have hcaps : (captureStones size b1 x y p).2 ≠ [] := by
          intro hnil
          have hbeq := hUnchf hnil
          have hlib := hPostf m hmN (by rw [hbeq]; exact hcm)
          rw [hbeq] at hlib
          omega
        obtain ⟨m', hm'N, hm'c⟩ := hSeedf hcaps
        exact ⟨m', (x, y), (hCompw (x, y)).mpr hwx, hm'N, hCap0f m' hm'c⟩
      · rw [if_neg hcm] at hbody
        exact absurd hbody (by simp)
  · -- a component not meeting the new stone: it already existed in b0
    have hwxy : w ≠ (x, y) := by
      intro he
      apply hwx
      rw [he]
      exact Relation.ReflTransGen.refl
    have hwb0 : getCell b0 w.1 w.2 ≠ 0 := by
      rw [← @getCell_setCell_ne b0 x y p w hwxy]
      exact hwb1ne
    obtain ⟨z0, cc, hcc, hzn0, hz00⟩ := hND w hwIn hwb0
    have hccb1 : Reach b1 size w cc := reach_place_of_reach hc0 hwb0 cc hcc
    have hccF : Reach bF size w cc := (hCompw cc).mpr hccb1
    by_cases hz0xy : z0 = (x, y)
    · have hccVal : getCell b1 cc.1 cc.2 = getCell b1 w.1 w.2 := reach_color hccb1
      have hccIn : inRange size cc := reach_inRange hcc hwIn
      have hzn0' : ((x, y) : Coord) ∈ neighbors size cc.1 cc.2 := by
        rw [← hz0xy]
        exact hzn0
      by_cases hcolp : getCell b1 w.1 w.2 = p
      · exfalso
        apply hwx
        refine hccb1.tail ⟨hzn0', ?_⟩
        show getCell b1 x y = getCell b1 cc.1 cc.2
        rw [hxyp, hccVal, hcolp]
      · have hccSurv : getCell bF cc.1 cc.2 ≠ 0 := by
          rw [reach_color hccF]
          exact hwF
        have hccValF : getCell bF cc.1 cc.2 = getCell b1 cc.1 cc.2 := hValf cc hccSurv
        have hcc3p : getCell bF cc.1 cc.2 = 3 - p := by
          have hv1 : getCell b1 cc.1 cc.2 ≠ 0 := by rw [hccVal]; exact hwb1ne
          have hv2 : getCell b1 cc.1 cc.2 ≠ p := by rw [hccVal]; exact hcolp
          rw [hccValF]
          rcases hp with rfl | rfl <;> rcases hCells1 cc with h | h | h <;> omega
        have hccNb : cc ∈ neighbors size x y := by
          have := neighbors_symm hccIn.1 hccIn.2 hzn0'
          rwa [Prod.mk.eta] at this
        have hlibs := hPostf cc hccNb hcc3p
        obtain ⟨z, k, hkR, hknb, hkz0⟩ :=
          (getGroupLiberties_pos_iff hccIn.1 hccIn.2 hccSurv).mp hlibs
        exact ⟨z, k, hccF.trans hkR, hknb, hkz0⟩
    · have hz0b1 : getCell b1 z0.1 z0.2 = 0 := by
        rw [@getCell_setCell_ne b0 x y p z0 hz0xy]
        exact hz00
      exact ⟨z0, cc, hccF, hzn0, hMonof z0 hz0b1⟩

/-- The resulting board also stays well-formed with cells in range. -/
theorem place_capture_WF_cells (size p x y : Nat) (b0 : Board)
    (hp : p = 1 ∨ p = 2) (hWF : WFBoard b0 size) (hCells : CellsOK b0)
    (hx : x < size) (hy : y < size) :
    WFBoard (captureStones size (setCell b0 x y p) x y p).1 size ∧
    CellsOK (captureStones size (setCell b0 x y p) x y p).1 := by
  have hWF1 : WFBoard (setCell b0 x y p) size := setCell_WF x y p hWF
  have hxyp : getCell (setCell b0 x y p) x y = p :=
    @getCell_setCell_self b0 size p (x, y) hWF ⟨hx, hy⟩
  have hCells1 : CellsOK (setCell b0 x y p) := setCell_cells hp hWF hx hy hCells
  obtain ⟨⟨hWFf, _, hValf, _, _, _⟩, _, _, _⟩ :=
    captureStones_spec size p x y (setCell b0 x y p) hp hWF1 hxyp
  refine ⟨hWFf, fun c => ?_⟩
  by_cases hcz : getCell (captureStones size (setCell b0 x y p) x y p).1 c.1 c.2 = 0
  · exact Or.inl hcz
  · rw [hValf c hcz]
    exact hCells1 c

theorem placeStone_size (s : GameState) (x y : Nat) :
    (placeStone s x y).2.size = s.size := by
  simp only [placeStone]
  split
  · rfl
  · rfl

theorem placeStone_board (s : GameState) (x y : Nat) (hv : isValidMove s x y = true) :
    (placeStone s x y).2.board =
      (captureStones s.size (setCell s.board x y s.currentPlayer) x y
        s.currentPlayer).1 := by
  simp [placeStone, hv, saveState]

theorem placeStone_player (s : GameState) (x y : Nat) (hv : isValidMove s x y = true) :
    (placeStone s x y).2.currentPlayer = 3 - s.currentPlayer := by
  simp [placeStone, hv, saveState]

theorem placeStone_koPoint (s : GameState) (x y : Nat) (hv : isValidMove s x y = true) :
    (placeStone s x y).2.koPoint =
      (match (captureStones s.size (setCell s.board x y s.currentPlayer) x y
          s.currentPlayer).2 with
        | [c] =>
          if (getGroup (captureStones s.size (setCell s.board x y s.currentPlayer)
              x y s.currentPlayer).1 s.size x y).length = 1
          then some c else none
        | _ => none) := by
  simp [placeStone, hv, saveState]

theorem placeStone_good {s : GameState} {x y : Nat} (hG : GoodState s)
    (hv : isValidMove s x y = true) : GoodState (placeStone s x y).2 := by
  obtain ⟨hWF, hCells, hp, hND⟩ := hG
  obtain ⟨⟨hx, hy⟩, hc0, hko, hsuic⟩ := (isValidMove_iff s x y).mp hv
  have hWFC := place_capture_WF_cells s.size s.currentPlayer x y s.board hp hWF hCells hx hy
  have hNDF := place_capture_noDead s.size s.currentPlayer x y s.board hp hWF hCells hND
    hx hy hc0 hsuic
  refine ⟨?_, ?_, ?_, ?_⟩
  · rw [placeStone_board s x y hv, placeStone_size s x y]
    exact hWFC.1
  · rw [placeStone_board s x y hv]
    exact hWFC.2
  · rw [placeStone_player s x y hv]
    rcases hp with h | h <;> rw [h]
    · exact Or.inr rfl
    · exact Or.inl rfl
  · rw [placeStone_board s x y hv, placeStone_size s x y]
    exact hNDF

theorem playAll_good : ∀ (ms : List Coord) (s0 s : GameState),
    GoodState s0 → playAll s0 ms = some s → GoodState s ∧ s.size = s0.size
  | [], s0, s, hG, h => by
    simp only [playAll, Option.some.injEq] at h
    rw [← h]
    exact ⟨hG, rfl⟩
  | m :: ms, s0, s, hG, h => by
    simp only [playAll] at h
    by_cases hr : (placeStone s0 m.1 m.2).1 = true
    · rw [if_pos hr] at h
      have hv : isValidMove s0 m.1 m.2 = true := by
        rw [← placeStone_fst]
        exact hr
      obtain ⟨hG', hsz⟩ := playAll_good ms _ s (placeStone_good hG hv) h
      refine ⟨hG', ?_⟩
      rw [hsz, placeStone_size]
    · rw [if_neg hr] at h
      cases h

theorem mkGame_good (size : Nat) (komi2 : Int) (rs : RuleSet) :
    GoodState (mkGame size komi2 0 rs) := by
  have hb : (mkGame size komi2 0 rs).board =
      List.replicate size (List.replicate size 0) := by
    simp [mkGame]
  have hsz : (mkGame size komi2 0 rs).size = size := rfl
  have hpl : (mkGame size komi2 0 rs).currentPlayer = 1 := by
    simp [mkGame]
  refine ⟨?_, ?_, ?_, ?_⟩
  · rw [hb, hsz]
    exact empty_board_WF size
  · rw [hb]
    intro c
    exact Or.inl (getCell_empty_board size c.1 c.2)
  · rw [hpl]
    exact Or.inl rfl
  · rw [hb, hsz]
    intro c _ hc
    exact absurd (getCell_empty_board size c.1 c.2) hc

theorem WFBoard_of_all {b : Board} {size : Nat}
    (h1 : b.length = size) (h2 : ∀ r ∈ b, r.length = size) :
    WFBoard b size := by
  refine ⟨h1, fun j hj => ?_⟩
  have hjl : j < b.length := by omega
  rw [List.getD, List.get?_eq_getElem?, List.getElem?_eq_getElem hjl]
  simp only [Option.getD_some]
  exact h2 _ (b.getElem_mem hjl)

end GoGame

/-- **C1** (amended): in game.js, `placeStone` succeeds exactly when
`isValidMove` returns true, and `isValidMove` returns false exactly when the
point is out of bounds, the cell is occupied, the point equals the active ko
point, or the move would be a suicide (the placed stone's group would have
zero liberties and nothing would be captured).  There is no superko clause:
`GoGame` keeps no fingerprint history. -/
theorem claim1_theorem (s : GoGame.GameState) (x y : Nat)
    (hWF : GoGame.WFBoard s.board s.size)
    (hp : s.currentPlayer = 1 ∨ s.currentPlayer = 2) :
    (GoGame.placeStone s x y).1 = GoGame.isValidMove s x y ∧
    (GoGame.isValidMove s x y = false ↔
      ¬(x < s.size ∧ y < s.size) ∨ GoGame.getCell s.board x y ≠ 0 ∨
      s.koPoint = some (x, y) ∨
      GoGame.SpecSuicide s.size s.board x y s.currentPlayer) := by
  refine ⟨GoGame.placeStone_fst s x y, ?_⟩
  rw [show (GoGame.isValidMove s x y = false) ↔ ¬(GoGame.isValidMove s x y = true)
    from by simp]
  rw [GoGame.isValidMove_iff]
  by_cases hb : x < s.size ∧ y < s.size
  · rw [← GoGame.isSuicideMove_true_iff hb.1 hb.2 hWF hp]
    constructor
    · intro h
      by_cases h1 : GoGame.getCell s.board x y = 0
      · by_cases h2 : s.koPoint = some (x, y)
        · exact Or.inr (Or.inr (Or.inl h2))
        · by_cases h3 : GoGame.isSuicideMove s.size s.board x y s.currentPlayer = true
          · exact Or.inr (Or.inr (Or.inr h3))
          · rw [Bool.not_eq_true] at h3
            exact absurd ⟨hb, h1, h2, h3⟩ h
      · exact Or.inr (Or.inl h1)
    · rintro (h | h | h | h) hcontra
      · exact h hb
      · exact h hcontra.2.1
      · exact hcontra.2.2.1 h
      · rw [hcontra.2.2.2] at h
        cases h
  · constructor
    · intro _
      exact Or.inl hb
    · intro _ hcontra
      exact hb hcontra.1

theorem claim1_witness :
    (GoGame.placeStone gInit 0 0).1 = GoGame.isValidMove gInit 0 0 ∧
    (GoGame.isValidMove gInit 0 0 = false ↔
      ¬(0 < gInit.size ∧ 0 < gInit.size) ∨ GoGame.getCell gInit.board 0 0 ≠ 0 ∨
      gInit.koPoint = some (0, 0) ∨
      GoGame.SpecSuicide gInit.size gInit.board 0 0 gInit.currentPlayer) :=
  claim1_theorem gInit 0 0 (GoGame.WFBoard_of_all (by decide) (by decide)) (by decide)

/-- **C3** (amended, game.js): after a valid move, the ko point is set to the
captured stone's location exactly when exactly one stone was captured and the
capturing group is a single stone (its component on the post-capture board is
just the played point); otherwise it is cleared; and whenever a ko point is
set, the immediately following move on that exact point is rejected. -/
theorem claim3_theorem (s : GoGame.GameState) (x y : Nat)
    (hWF : GoGame.WFBoard s.board s.size)
    (hp : s.currentPlayer = 1 ∨ s.currentPlayer = 2)
    (hv : GoGame.isValidMove s x y = true) :
    (∀ c : GoGame.Coord,
      (GoGame.captureStones s.size (GoGame.setCell s.board x y s.currentPlayer)
        x y s.currentPlayer).2 = [c] →
      (GoGame.getGroup (GoGame.captureStones s.size
          (GoGame.setCell s.board x y s.currentPlayer) x y s.currentPlayer).1
        s.size x y).length = 1 →
      (GoGame.placeStone s x y).2.koPoint = some c) ∧
    ((¬ ∃ c : GoGame.Coord,
      (GoGame.captureStones s.size (GoGame.setCell s.board x y s.currentPlayer)
        x y s.currentPlayer).2 = [c] ∧
      (GoGame.getGroup (GoGame.captureStones s.size
          (GoGame.setCell s.board x y s.currentPlayer) x y s.currentPlayer).1
        s.size x y).length = 1) →
      (GoGame.placeStone s x y).2.koPoint = none) ∧
    (∀ c : GoGame.Coord, (GoGame.placeStone s x y).2.koPoint = some c →
      GoGame.isValidMove (GoGame.placeStone s x y).2 c.1 c.2 = false) ∧
    ((GoGame.getGroup (GoGame.captureStones s.size
        (GoGame.setCell s.board x y s.currentPlayer) x y s.currentPlayer).1
      s.size x y).length = 1 →
      ∀ z : GoGame.Coord,
        GoGame.Reach (GoGame.captureStones s.size
          (GoGame.setCell s.board x y s.currentPlayer) x y s.currentPlayer).1
          s.size (x, y) z → z = (x, y)) := by
  have hkp := GoGame.placeStone_koPoint s x y hv
  obtain ⟨⟨hx, hy⟩, hc0, hko, hsuic⟩ := (GoGame.isValidMove_iff s x y).mp hv
  refine ⟨?_, ?_, ?_, ?_⟩
  · intro c hcap hlen
    rw [hkp, hcap]
    simp [hlen]
  · intro hne
    rw [hkp]
    rcases hcap : (GoGame.captureStones s.size
        (GoGame.setCell s.board x y s.currentPlayer) x y s.currentPlayer).2
      with _ | ⟨c, rest⟩
    · rfl
    · rcases rest with _ | ⟨d, rest2⟩
      · by_cases hlen : (GoGame.getGroup (GoGame.captureStones s.size
            (GoGame.setCell s.board x y s.currentPlayer) x y s.currentPlayer).1
          s.size x y).length = 1
        · exact absurd ⟨c, hcap, hlen⟩ hne
        · simp [hlen]
      · rfl
  · intro c hkpc
    unfold GoGame.isValidMove
    by_cases hbc2 : c.1 < (GoGame.placeStone s x y).2.size ∧
        c.2 < (GoGame.placeStone s x y).2.size
    · rw [if_pos hbc2]
      by_cases hocc : GoGame.getCell (GoGame.placeStone s x y).2.board c.1 c.2 ≠ 0
      · rw [if_pos hocc]
      · rw [if_neg hocc]
        rw [hkpc]
        simp
    · rw [if_neg hbc2]
  · intro hlen z hz
    have hpne : s.currentPlayer ≠ 0 := by
      rcases hp with h | h <;> rw [h] <;> decide
    have hWF1 : GoGame.WFBoard (GoGame.setCell s.board x y s.currentPlayer) s.size :=
      GoGame.setCell_WF x y s.currentPlayer hWF
    have hxyp := @GoGame.getCell_setCell_self s.board s.size s.currentPlayer (x, y)
      hWF ⟨hx, hy⟩
    obtain ⟨⟨hWFf, hXYf, _, _, _, _⟩, _, _, _⟩ :=
      GoGame.captureStones_spec s.size s.currentPlayer x y
        (GoGame.setCell s.board x y s.currentPlayer) hp hWF1 hxyp
    have hne0 : GoGame.getCell (GoGame.captureStones s.size
        (GoGame.setCell s.board x y s.currentPlayer) x y s.currentPlayer).1 x y ≠ 0 := by
      rw [hXYf]
      exact hpne
    obtain ⟨a, ha⟩ := List.length_eq_one.mp hlen
    have hstart : ((x, y) : GoGame.Coord) ∈ GoGame.getGroup (GoGame.captureStones s.size
        (GoGame.setCell s.board x y s.currentPlayer) x y s.currentPlayer).1 s.size x y :=
      (GoGame.mem_getGroup_iff hx hy hne0 (x, y)).mpr Relation.ReflTransGen.refl
    have hzmem : z ∈ GoGame.getGroup (GoGame.captureStones s.size
        (GoGame.setCell s.board x y s.currentPlayer) x y s.currentPlayer).1 s.size x y :=
      (GoGame.mem_getGroup_iff hx hy hne0 z).mpr hz
    rw [ha] at hstart hzmem
    have h1 := List.mem_singleton.mp hstart
    have h2 := List.mem_singleton.mp hzmem
    rw [h2, ← h1]

theorem claim3_witness :
    (GoGame.placeStone koG8 2 1).2.koPoint = some (1, 1) ∧
    GoGame.isValidMove (GoGame.placeStone koG8 2 1).2 1 1 = false := by
  have h := claim3_theorem koG8 2 1 (GoGame.WFBoard_of_all (by decide) (by decide))
    (by decide) (by decide)
  exact ⟨by decide, h.2.2.1 (1, 1) (by decide)⟩

/-- **C6**: in every state reachable from a fresh handicap-free game by
successful `placeStone` calls, every maximal 4-connected group of
same-coloured stones has at least one liberty: a zero-liberty group can arise
only inside the `placeStone` step, where `captureStones` removes it before
the call returns. -/
theorem claim6_theorem (size : Nat) (komi2 : Int) (rs : GoGame.RuleSet)
    (ms : List GoGame.Coord) (s : GoGame.GameState)
    (h : GoGame.playAll (GoGame.mkGame size komi2 0 rs) ms = some s) :
    GoGame.NoDeadGroups s.board s.size := by
  obtain ⟨⟨_, _, _, hND⟩, _⟩ :=
    GoGame.playAll_good ms _ s (GoGame.mkGame_good size komi2 rs) h
  exact hND

theorem claim6_witness :
    GoGame.NoDeadGroups
      (GoGame.placeStone (GoGame.mkGame 9 13 0 GoGame.RuleSet.chinese) 0 0).2.board
      (GoGame.placeStone (GoGame.mkGame 9 13 0 GoGame.RuleSet.chinese) 0 0).2.size :=
  claim6_theorem 9 13 GoGame.RuleSet.chinese [(0, 0)]
    (GoGame.placeStone (GoGame.mkGame 9 13 0 GoGame.RuleSet.chinese) 0 0).2 (by rfl)
